import Mathlib

/-!
Verification of the pysubclasses repository: a shallow embedding of the
data model and the algorithms of src/src (registry.rs, graph.rs, lib.rs,
utils.rs, parser.rs, cache.rs), together with theorems settling the
claims C1..C10 about the natural-language specification.

Modelling conventions:
* Rust HashMap / HashSet values are embedded as association lists
  (`List (k × v)`) resp. plain lists, with insert-overwrite semantics
  (`ainsert`) and first-match lookup (`alookup`); HashMap iteration order
  is modelled as insertion order.
* Rust `String` and path components are Lean `String`s; `PathBuf` fields
  that the algorithms never inspect are carried as `String`s.
* Loops whose termination rests on a visited set or on a fixed point of a
  monotone map are embedded with an explicit fuel that provably dominates
  the number of iterations the Rust loop can perform, so the fuel never
  truncates an execution (comments at each definition give the bound).
-/

set_option maxHeartbeats 1000000

/-- Association-list lookup, mirroring HashMap::get: first entry whose key
matches. -/
def alookup {α β : Type} [DecidableEq α] : List (α × β) → α → Option β
  | [], _ => none
  | p :: rest, k => if p.1 = k then some p.2 else alookup rest k

/-- Association-list insert, mirroring HashMap::insert: overwrite the
binding if the key is present, otherwise append a new entry. -/
def ainsert {α β : Type} [DecidableEq α] (l : List (α × β)) (k : α) (v : β) :
    List (α × β) :=
  if (alookup l k).isSome then
    l.map (fun p => if p.1 = k then (k, v) else p)
  else l ++ [(k, v)]

/-- Association-list push-to-entry, mirroring
map.entry(k).or_default().push(v) for HashMap String -> Vec. -/
def apush {α β : Type} [DecidableEq α] (l : List (α × List β)) (k : α) (v : β) :
    List (α × List β) :=
  match alookup l k with
  | some old => ainsert l k (old ++ [v])
  | none => l ++ [(k, [v])]

/-- HashSet::insert on a list-modelled set. -/
def sinsert {α : Type} [DecidableEq α] (l : List α) (x : α) : List α :=
  if x ∈ l then l else l ++ [x]

/-! ### Shared data model (parser types of the enum-import iteration)

These are the types that registry.rs and graph.rs consume from
crate::parser: the Import enum (Module / From / RelativeFrom), BaseClass
(Simple / Attribute), ClassDefinition and ParsedFile.  The Lean
constructor fromImport stands for the source variant named From (a Lean
keyword). -/

/-- ClassId from registry.rs: a (module_path, class_name) pair. -/
structure ClassId where
  module_path : String
  class_name : String
deriving DecidableEq

/-- Import enum consumed by registry.rs, graph.rs and utils.rs:
Module { module, alias }, From { module, names }, and
RelativeFrom { level, module, names }; each name pairs the imported name
with an optional alias. -/
inductive Import where
  | module (module : String) (al : Option String)
  | fromImport (module : String) (names : List (String × Option String))
  | relativeFrom (level : Nat) (module : Option String)
      (names : List (String × Option String))
deriving DecidableEq

/-- BaseClass from the parser consumed by registry.rs: a simple name or a
dotted attribute chain split into parts. -/
inductive BaseClass where
  | simple (name : String)
  | attr (parts : List String)
deriving DecidableEq

/-- ClassDefinition consumed by registry.rs and graph.rs. -/
structure ClassDefinition where
  name : String
  module_path : String
  file_path : String
  bases : List BaseClass
deriving DecidableEq

/-- ParsedFile consumed by registry.rs (add_file) and graph.rs (build). -/
structure ParsedFile where
  file_path : String
  module_path : String
  classes : List ClassDefinition
  imports : List Import
  is_package : Bool
deriving DecidableEq

/-! ### utils.rs -/

/-- Embedding of str::split('.') as used throughout the source: split a
string at every dot; the result always has at least one (possibly empty)
part.  Defined by structural recursion so concrete instances evaluate in
the kernel. -/
def splitOnDot (s : String) : List String :=
  (s.toList.foldr
    (fun c acc =>
      if c = '.' then [] :: acc
      else
        match acc with
        | [] => [[c]]
        | g :: gs => (c :: g) :: gs) [[]]).map String.mk

/-- Embedding of utils::resolve_relative_import_base (src/utils.rs):
PEP-328 dot resolution.  For a package, level 1 is the package itself and
level L keeps the first k-(L-1) dot components; for a regular module,
level L keeps the first k-L components; level 0 is not a relative import. -/
def resolveRelativeImportBase (current_module : String) (level : Nat)
    (is_package : Bool) : Option String :=
  if level = 0 then none
  else
    let parts := splitOnDot current_module
    let base :=
      if is_package then
        if level = 1 then current_module
        else
          let components_to_keep := parts.length - (level - 1)
          if components_to_keep = 0 then ""
          else String.intercalate "." (parts.take components_to_keep)
      else
        let components_to_keep := parts.length - level
        if components_to_keep = 0 then ""
        else String.intercalate "." (parts.take components_to_keep)
    some base

/-- Embedding of utils::resolve_name (src/utils.rs): resolve a name to a
fully qualified dotted path using the module's import list. -/
def resolveName (name : String) (imports : List Import)
    (current_module : String) (is_package : Bool) : Option String :=
  match imports with
  | [] => none
  | imp :: rest =>
    match imp with
    | .module m al =>
      if (al.getD m) = name then some m
      else resolveName name rest current_module is_package
    | .fromImport m names =>
      match names.find? (fun p => (p.2.getD p.1) == name) with
      | some p => some (m ++ "." ++ p.1)
      | none => resolveName name rest current_module is_package
    | .relativeFrom level rmod names =>
      match names.find? (fun p => (p.2.getD p.1) == name) with
      | some p =>
        match resolveRelativeImportBase current_module level is_package with
        | none => none
        | some base =>
          some (match base == "", rmod with
            | true, none => p.1
            | true, some m => m ++ "." ++ p.1
            | false, none => base ++ "." ++ p.1
            | false, some m => base ++ "." ++ m ++ "." ++ p.1)
      | none => resolveName name rest current_module is_package

/-! The source resolve_name iterates over the import list and, inside the
RelativeFrom arm, propagates a failed dot resolution with the ? operator,
aborting the whole scan; the embedding mirrors that early return. -/

/-- Embedding of parser::resolve_relative_module (src/parser.rs).  The
source derives is_package from the file name (`__init__.py`); the
embedding takes the flag directly.  Returns the empty string when the dots
climb above the root (the source's error case). -/
def resolveRelativeModule (current_module : String) (level : Nat)
    (is_package : Bool) : String :=
  let parts := splitOnDot current_module
  let base_level := if is_package then level - 1 else level
  if parts.length ≤ base_level then ""
  else String.intercalate "." (parts.take (parts.length - base_level))

/-- Strip the final extension of one path component, following
Path::with_extension(""): a component has an extension only if a dot
occurs after its first character; the part after the last dot is removed. -/
def stripExt (s : String) : String :=
  let cs := s.toList
  if ('.' ∈ cs.drop 1) then
    String.mk (((cs.reverse.dropWhile (fun c => c ≠ '.')).drop 1).reverse)
  else s

/-- Apply a function to the last element of a list. -/
def mapLast {α : Type} (f : α → α) : List α → List α
  | [] => []
  | [a] => [f a]
  | a :: b :: rest => a :: mapLast f (b :: rest)

/-- Embedding of file_path_to_module_path (src/utils.rs, and the identical
copies in src/parser.rs and src/discovery.rs).  The argument is the
component list of the path relative to the root (the source obtains it by
strip_prefix, which the claim's "strictly under the root" guarantees to
succeed); with_extension("") acts on the final component. -/
def filePathToModulePath (rel : List String) : Option String :=
  let components := mapLast stripExt rel
  if components.isEmpty then none
  else
    let module_parts :=
      if components.getLast? = some "__init__" then components.dropLast
      else components
    if module_parts.isEmpty then none
    else some (String.intercalate "." module_parts)

/-! ### registry.rs -/

/-- ClassInfo from registry.rs: where a class is defined. -/
structure ClassInfo where
  id : ClassId
  file_path : String
  bases : List BaseClass
deriving DecidableEq

/-- ClassRegistry from registry.rs: classes, the name index used for
ambiguity detection, per-module import lists, the re-export map and the
set of package modules. -/
structure ClassRegistry where
  classes : List (ClassId × ClassInfo)
  name_index : List (String × List ClassId)
  imports : List (String × List Import)
  re_exports : List (ClassId × ClassId)
  packages : List String
deriving DecidableEq

/-- ClassRegistry::new / Default. -/
def emptyRegistry : ClassRegistry := ⟨[], [], [], [], []⟩

/-- registry.rs add_class: index the class under its simple name and under
its ClassId. -/
def addClass (r : ClassRegistry) (c : ClassDefinition) : ClassRegistry :=
  let id : ClassId := ⟨c.module_path, c.name⟩
  let info : ClassInfo := ⟨id, c.file_path, c.bases⟩
  { r with
    name_index := apush r.name_index c.name id
    classes := ainsert r.classes id info }

/-- registry.rs add_file: store the module's import list, record package
status, and add all classes. -/
def addFile (r : ClassRegistry) (parsed : ParsedFile) : ClassRegistry :=
  let r1 := { r with
    imports := ainsert r.imports parsed.module_path parsed.imports }
  let r2 :=
    if parsed.is_package then
      { r1 with packages := sinsert r1.packages parsed.module_path }
    else r1
  parsed.classes.foldl addClass r2

/-- Modelled from the spec: parser::resolve_relative_import_with_context
is called by registry.rs build_reexports but is missing from the source
files; per the spec (data-model section) relative-import dot resolution is
PEP-328-style exactly as implemented by utils::resolve_relative_import_base
(which is in src/utils.rs), so the model delegates to that embedding. -/
def resolveRelativeImportWithContext (module_path : String) (level : Nat)
    (is_package : Bool) : Option String :=
  resolveRelativeImportBase module_path level is_package

/-- One import's contribution to the reexports_to_add list collected by a
pass of registry.rs build_reexports. -/
def reexportCandidatesOfImport (r : ClassRegistry) (module_path : String) :
    Import → List (ClassId × ClassId)
  | .module _ _ => []
  | .fromImport m names =>
    names.filterMap (fun p =>
      let exported_name := p.2.getD p.1
      let original_id : ClassId := ⟨m, p.1⟩
      if (alookup r.classes original_id).isSome
          || (alookup r.re_exports original_id).isSome then
        some (⟨module_path, exported_name⟩, original_id)
      else none)
  | .relativeFrom level rmod names =>
    let is_package := r.packages.contains module_path
    match resolveRelativeImportWithContext module_path level is_package with
    | none => []
    | some base =>
      names.filterMap (fun p =>
        let exported_name := p.2.getD p.1
        let original_module :=
          match rmod with
          | some m => if base = "" then m else base ++ "." ++ m
          | none => base
        let original_id : ClassId := ⟨original_module, p.1⟩
        if (alookup r.classes original_id).isSome
            || (alookup r.re_exports original_id).isSome then
          some (⟨module_path, exported_name⟩, original_id)
        else none)

/-- The full reexports_to_add list collected by one pass of
build_reexports over all modules' import lists. -/
def reexportCandidates (r : ClassRegistry) : List (ClassId × ClassId) :=
  r.imports.flatMap (fun p => p.2.flatMap (reexportCandidatesOfImport r p.1))

/-- The insertion loop at the end of a build_reexports pass: add each
candidate whose re-export key is still vacant. -/
def addNewReexports (re : List (ClassId × ClassId)) :
    List (ClassId × ClassId) → List (ClassId × ClassId)
  | [] => re
  | (rid, oid) :: rest =>
    if alookup re rid = none then addNewReexports (re ++ [(rid, oid)]) rest
    else addNewReexports re rest

/-- One pass of the build_reexports while-changed loop. -/
def reexportPass (r : ClassRegistry) : ClassRegistry :=
  { r with re_exports := addNewReexports r.re_exports (reexportCandidates r) }

/-- Number of imported names a single import contributes. -/
def importNamesCount : Import → Nat
  | .module _ _ => 0
  | .fromImport _ names => names.length
  | .relativeFrom _ _ names => names.length

/-- Upper bound on how many re-export entries build_reexports can ever
hold: the total number of names over all From / RelativeFrom imports. -/
def regBound (r : ClassRegistry) : Nat :=
  (r.imports.map (fun p => (p.2.map importNamesCount).sum)).sum

/-- Fuelled fixed-point iteration for registry.rs build_reexports.  The
while-changed loop stops as soon as a pass adds nothing; every productive
pass appends at least one entry with a fresh key, keys are drawn from the
candidate keys (at most regBound many) and entries are never removed, so
fuel regBound + 1 provably reaches the fixed point. -/
def buildReexportsAux : Nat → ClassRegistry → ClassRegistry
  | 0, r => r
  | f + 1, r =>
    let r2 := reexportPass r
    if r2.re_exports.length = r.re_exports.length then r2
    else buildReexportsAux f r2

/-- registry.rs build_reexports. -/
def buildReexports (r : ClassRegistry) : ClassRegistry :=
  buildReexportsAux (regBound r + 1) r

/-- Loop body of registry.rs resolve_through_reexports, with an explicit
visited list and fuel.  Each recursive step consumes a distinct
re_exports key and records it in visited, so fuel
re_exports.length + 1 never truncates the source loop. -/
def resolveThroughAux (r : ClassRegistry) :
    Nat → List ClassId → ClassId → Option ClassId
  | 0, _, _ => none
  | f + 1, visited, current =>
    if current ∈ visited then none
    else
      match alookup r.re_exports current with
      | some original => resolveThroughAux r f (current :: visited) original
      | none =>
        if (alookup r.classes current).isSome then some current else none

/-- registry.rs resolve_through_reexports: follow the re-export chain to
the canonical ClassId, with a visited set preventing loops. -/
def resolveThroughReexports (r : ClassRegistry) (id : ClassId) :
    Option ClassId :=
  resolveThroughAux r (r.re_exports.length + 1) [] id

/-- registry.rs find_by_name. -/
def findByName (r : ClassRegistry) (name : String) : Option (List ClassId) :=
  alookup r.name_index name

/-- The for-loop of find_class_by_qualified_name: try each strict-prefix
length index i (from parts.len()-2 down to 0), using parts[..=i] joined
with dots as the module path and the last part as the class name. -/
def tryModulePrefixes (r : ClassRegistry) (parts : List String)
    (class_name : String) : List Nat → Option ClassId
  | [] => none
  | i :: rest =>
    let module_path := String.intercalate "." (parts.take (i + 1))
    match resolveThroughReexports r ⟨module_path, class_name⟩ with
    | some resolved => some resolved
    | none => tryModulePrefixes r parts class_name rest

/-- registry.rs find_class_by_qualified_name: split the dotted name, take
the last part as class name, and try progressively shorter strict-prefix
module paths (never the whole string). -/
def findClassByQualifiedName (r : ClassRegistry) (qualified : String) :
    Option ClassId :=
  let parts := splitOnDot qualified
  if parts.isEmpty then none
  else
    let class_name := parts.getLastD ""
    tryModulePrefixes r parts class_name (List.range (parts.length - 1)).reverse

/-- Fallthrough tail of resolve_base's Simple arm: same-module lookup
through re-exports, then the unambiguous name-index lookup. -/
def resolveBaseSimpleFallback (r : ClassRegistry) (name : String)
    (context_module : String) : Option ClassId :=
  match resolveThroughReexports r ⟨context_module, name⟩ with
  | some resolved => some resolved
  | none =>
    match findByName r name with
    | none => none
    | some ms => if ms.length = 1 then ms.head? else none

/-- The import-based interpretation tried inside each iteration of
resolve_base's Attribute loop: resolve the first attribute part through
the module's imports and look the class up under the rebuilt full module
path (this computation does not depend on the loop index). -/
def resolveAttrViaImport (r : ClassRegistry) (parts : List String)
    (class_name : String) (context_module : String) : Option ClassId :=
  match alookup r.imports context_module with
  | some imports =>
    let is_package := r.packages.contains context_module
    match parts.head? with
    | some firstPart =>
      match resolveName firstPart imports context_module is_package with
      | some resolved =>
        let full_module :=
          if parts.length > 2 then
            resolved ++ "." ++
              String.intercalate "." ((parts.drop 1).take (parts.length - 2))
          else resolved
        resolveThroughReexports r ⟨full_module, class_name⟩
      | none => none
    | none => none
  | none => none

/-- The for-loop of resolve_base's Attribute arm over strict-prefix length
indices, first trying the import-based interpretation of the first part
and then the direct module-path interpretation. -/
def resolveAttrLoop (r : ClassRegistry) (parts : List String)
    (class_name : String) (context_module : String) :
    List Nat → Option ClassId
  | [] => none
  | i :: rest =>
    let module_path := String.intercalate "." (parts.take (i + 1))
    match resolveAttrViaImport r parts class_name context_module with
    | some res => some res
    | none =>
      match resolveThroughReexports r ⟨module_path, class_name⟩ with
      | some res => some res
      | none => resolveAttrLoop r parts class_name context_module rest

/-- registry.rs resolve_base, with parser::resolve_import (missing from
the source files) modelled by utils::resolve_name from src/utils.rs,
whose signature and role match the call sites. -/
def resolveBase (r : ClassRegistry) (base : BaseClass)
    (context_module : String) : Option ClassId :=
  match base with
  | .simple name =>
    match alookup r.imports context_module with
    | some imports =>
      let is_package := r.packages.contains context_module
      match resolveName name imports context_module is_package with
      | some qualified => findClassByQualifiedName r qualified
      | none => resolveBaseSimpleFallback r name context_module
    | none => resolveBaseSimpleFallback r name context_module
  | .attr parts =>
    if parts.length < 2 then none
    else
      let class_name := parts.getLastD ""
      resolveAttrLoop r parts class_name context_module
        (List.range (parts.length - 1)).reverse

/-- Fold add_file over a list of parsed files (the first pass of
registry construction). -/
def buildRegistryRaw (files : List ParsedFile) : ClassRegistry :=
  files.foldl addFile emptyRegistry

/-- Full registry construction: add every file, then build_reexports. -/
def buildRegistry (files : List ParsedFile) : ClassRegistry :=
  buildReexports (buildRegistryRaw files)

/-- Iterated traversal of the re-export map: the ClassId reached from id
after n lookup steps, none as soon as a step leaves the key set.  Used to
state cycle and soundness properties of resolve_through_reexports. -/
def reChain (r : ClassRegistry) : Nat → ClassId → Option ClassId
  | 0, id => some id
  | n + 1, id => (reChain r n id).bind (fun c => alookup r.re_exports c)

/-- The module paths known to a registry: the keys of its imports map
(add_file registers every file's module path there). -/
def moduleKeys (r : ClassRegistry) : List String :=
  r.imports.map Prod.fst

/-- Structural invariant of registries produced by add_file / add_class:
every ClassId stored in the name index is a key of the classes map. -/
def NameIndexInv (r : ClassRegistry) : Prop :=
  ∀ name ms, alookup r.name_index name = some ms →
    ∀ id ∈ ms, (alookup r.classes id).isSome

/-- Structural invariant: every registered class lives in a module that is
itself registered (has an imports entry).  Holds for registries built from
well-formed parsed files. -/
def ClassModulesReg (r : ClassRegistry) : Prop :=
  ∀ id : ClassId, (alookup r.classes id).isSome →
    (alookup r.imports id.module_path).isSome

/-- Structural invariant: every re-export key lives in a registered
module.  Holds after build_reexports since candidates are drawn from the
imports map. -/
def ReexportModulesReg (r : ClassRegistry) : Prop :=
  ∀ p ∈ r.re_exports, (alookup r.imports (Prod.fst p).module_path).isSome

/-- Well-formedness of parsed files: every class record carries the module
path of the file it appears in (the parser always produces this). -/
def WellFormedFiles (files : List ParsedFile) : Prop :=
  ∀ f ∈ files, ∀ c ∈ f.classes, c.module_path = f.module_path

/-- Demo file for the bare-module-path lookup: a package x.y defining a
class C, with no file for a bare module x. -/
def bareDemoFile : ParsedFile :=
  ⟨"x/y/init.py", "x.y", [⟨"C", "x.y", "x/y/init.py", []⟩], [], true⟩

/-- Demo file: a class Animal defined in module animals.base. -/
def regDemoBase : ParsedFile :=
  ⟨"animals/base.py", "animals.base",
    [⟨"Animal", "animals.base", "animals/base.py", []⟩], [], false⟩

/-- Demo file: the animals package re-exporting Animal from .base. -/
def regDemoInitFile : ParsedFile :=
  ⟨"animals/init.py", "animals", [],
    [.relativeFrom 1 (some "base") [("Animal", none)]], true⟩

/-- Demo file: module pets defining Dog(Animal) importing Animal from the
re-exporting package. -/
def regDemoPets : ParsedFile :=
  ⟨"pets.py", "pets",
    [⟨"Dog", "pets", "pets.py", [.simple "Animal"]⟩],
    [.fromImport "animals" [("Animal", none)]], false⟩

/-- Cyclic-import demo: module a re-imports X from b. -/
def cycFileA : ParsedFile :=
  ⟨"a.py", "a", [], [.fromImport "b" [("X", none)]], false⟩

/-- Cyclic-import demo: module b defines X and re-imports X from a,
closing a re-export cycle after build_reexports. -/
def cycFileB : ParsedFile :=
  ⟨"b.py", "b", [⟨"X", "b", "b.py", []⟩],
    [.fromImport "a" [("X", none)]], false⟩

/-! ### Re-export chain scenario (C2)

A class N defined in module M, re-exported along a chain of modules
ms = [M1, ..., Mk]: each Mi holds a From import of N from the next link
(the last link imports from M itself). -/

/-- One re-exporting module of the chain: module m importing N from
module next. -/
def chainLinkFile (N m next : String) : ParsedFile :=
  ⟨"", m, [], [.fromImport next [(N, none)]], true⟩

/-- The re-exporting files of the chain, each importing from the next
element (the last from the defining module M). -/
def chainFilesAux (M N : String) : List String → List ParsedFile
  | [] => []
  | m :: rest => chainLinkFile N m (rest.headD M) :: chainFilesAux M N rest

/-- The file defining class N in module M. -/
def chainDefFile (M N : String) : ParsedFile :=
  ⟨"", M, [⟨N, M, "", []⟩], [], false⟩

/-- The whole parsed-file set of the chain scenario. -/
def chainFiles (M N : String) (ms : List String) : List ParsedFile :=
  chainDefFile M N :: chainFilesAux M N ms

/-- The imports-map entries contributed by the chain files. -/
def chainImportsList (M N : String) : List String → List (String × List Import)
  | [] => []
  | m :: rest =>
    (m, [.fromImport (rest.headD M) [(N, none)]]) :: chainImportsList M N rest

/-- The re-export pairs the chain can ever produce: each link maps
(Mi, N) to (next, N). -/
def chainLinks (M N : String) : List String → List (ClassId × ClassId)
  | [] => []
  | m :: rest => (⟨m, N⟩, ⟨rest.headD M, N⟩) :: chainLinks M N rest

/-! ### graph.rs

The graph iteration present in src/src/graph.rs: its own ClassId shape
(module, name), module metadata, resolved imports, the three-pass build
(whose third pass is a TODO in the source and adds no edge), and the BFS
find_all_subclasses. -/

namespace Graph

/-- ClassId from graph.rs: { module, name }. -/
structure ClassId where
  module : String
  name : String
deriving DecidableEq

/-- ModuleMetadata from graph.rs. -/
structure ModuleMetadata where
  file_path : String
  is_package : Bool
deriving DecidableEq

/-- ResolvedImport from graph.rs: a module import or a module-member
import. -/
inductive ResolvedImport where
  | module (module : String) (imported_as : String)
  | moduleMember (module : String) (member : String) (imported_as : String)
deriving DecidableEq

/-- InheritanceGraph from graph.rs. -/
structure InheritanceGraph where
  modules : List (String × ModuleMetadata)
  classes : List ClassId
  imports : List (String × List ResolvedImport)
  class_children : List (ClassId × List ClassId)

/-- The file-local resolve_relative_import of graph.rs. -/
def resolveRelativeImport (current_module : String) (level : Nat)
    (relative_module : Option String) (is_package : Bool) : Option String :=
  let parts := splitOnDot current_module
  if level = 0 ∨ parts.length < level then none
  else
    let levels_to_remove := if is_package then level - 1 else level
    if parts.length < levels_to_remove then none
    else
      let base_parts := parts.take (parts.length - levels_to_remove)
      let base : Option String :=
        if base_parts.isEmpty then none
        else some (String.intercalate "." base_parts)
      match base, relative_module with
      | some b, some m => some (b ++ "." ++ m)
      | some b, none => some b
      | none, some m => some m
      | none, none => none

/-- Second-pass resolution of one Import into ResolvedImports, using the
completed modules map to distinguish module imports from member imports. -/
def resolveImportsOfImport (modules : List (String × ModuleMetadata))
    (modPath : String) (isPkg : Bool) : Import → List ResolvedImport
  | .module m al => [.module m (al.getD m)]
  | .fromImport m names =>
    names.map (fun p =>
      let full := m ++ "." ++ p.1
      if (alookup modules full).isSome then
        ResolvedImport.module full (p.2.getD p.1)
      else ResolvedImport.moduleMember m p.1 (p.2.getD p.1))
  | .relativeFrom level rmod names =>
    match resolveRelativeImport modPath level rmod isPkg with
    | none => []
    | some abs =>
      names.map (fun p =>
        let full := abs ++ "." ++ p.1
        if (alookup modules full).isSome then
          ResolvedImport.module full (p.2.getD p.1)
        else ResolvedImport.moduleMember abs p.1 (p.2.getD p.1))

/-- InheritanceGraph::build from graph.rs.  First pass registers modules
and classes, the second resolves imports; the third pass, which the
source marks with a TODO comment, never inserts any parent-child edge, so
class_children stays empty. -/
def build (parsed_files : List ParsedFile) : InheritanceGraph :=
  let modules := parsed_files.foldl
    (fun acc file =>
      ainsert acc file.module_path ⟨file.file_path, file.is_package⟩) []
  let classes := parsed_files.foldl
    (fun acc file => file.classes.foldl
      (fun acc2 c => sinsert acc2 (⟨file.module_path, c.name⟩ : ClassId)) acc)
    []
  let imports := parsed_files.foldl
    (fun acc file => ainsert acc file.module_path
      (file.imports.flatMap
        (resolveImportsOfImport modules file.module_path file.is_package)))
    []
  let class_children : List (ClassId × List ClassId) := []
  ⟨modules, classes, imports, class_children⟩

/-- Direct children lookup in the graph (empty when absent). -/
def childrenOf (g : InheritanceGraph) (c : ClassId) : List ClassId :=
  (alookup g.class_children c).getD []

/-- The one-step child relation of the graph: b is a direct subclass of
a. -/
def edge (g : InheritanceGraph) (a b : ClassId) : Prop :=
  b ∈ childrenOf g a

/-- All ClassIds BFS can ever visit: the root plus every id occurring in
a children list.  Used to bound the loop. -/
def allNodes (g : InheritanceGraph) (root : ClassId) : Finset ClassId :=
  insert root
    (g.class_children.foldr (fun p acc => p.2.toFinset ∪ acc) ∅)

/-- The children a BFS iteration actually enqueues: those not yet
visited, deduplicated left to right exactly as the source loop inserts
them into the visited set one by one. -/
def newKidsOf (visited : Finset ClassId) : List ClassId → List ClassId
  | [] => []
  | c :: cs =>
    if c ∈ visited then newKidsOf visited cs
    else c :: newKidsOf (insert c visited) cs

/-- The BFS loop of find_all_subclasses, with fuel.  Each iteration pops
the queue front, pushes the unvisited children to result and queue, and
marks them visited; fuel (allNodes).card + 1 dominates the number of
iterations (every iteration either shrinks the unvisited node count or
shortens the queue), so the source loop is never truncated. -/
def bfsAux (g : InheritanceGraph) :
    Nat → List ClassId → Finset ClassId → List ClassId
  | 0, _, _ => []
  | _ + 1, [], _ => []
  | f + 1, current :: rest, visited =>
    let newKids := newKidsOf visited (childrenOf g current)
    newKids ++ bfsAux g f (rest ++ newKids) (visited ∪ newKids.toFinset)

/-- InheritanceGraph::find_all_subclasses from graph.rs: BFS from root
with a visited set, the root itself pre-visited and never emitted. -/
def findAllSubclasses (g : InheritanceGraph) (root : ClassId) :
    List ClassId :=
  bfsAux g ((allNodes g root).card + 1) [root] {root}

end Graph

/-- Demo file for the missing graph edges: module base defining Animal. -/
def graphDemoBase : ParsedFile :=
  ⟨"base.py", "base", [⟨"Animal", "base", "base.py", []⟩], [], false⟩

/-- Demo file for the missing graph edges: module derived defining
Dog(Animal) with Animal imported from base. -/
def graphDemoDerived : ParsedFile :=
  ⟨"derived.py", "derived",
    [⟨"Dog", "derived", "derived.py", [.simple "Animal"]⟩],
    [.fromImport "base" [("Animal", none)]], false⟩

/-! ### Finder target-class resolution (lib.rs) over the spec's Registry -/

namespace Finder

/-- registry::ClassId as consumed by lib.rs: module path plus class
name. -/
structure ClassId where
  module : String
  name : String
deriving DecidableEq, Repr

/-- parser.rs struct Import: a normalized flat import entry. -/
structure ImportEntry where
  imported_item : String
  imported_as : String
deriving DecidableEq, Repr

/-- Modelled from the spec: the Registry interface lib.rs consumes (the
classes keys, the module keys, and each module's normalized import list
in file order); the ClassRegistry in src/src/registry.rs is a different
iteration that lacks the resolve_class method lib.rs calls. -/
structure Registry where
  classes : List Finder.ClassId
  modules : List String
  imports : List (String × List ImportEntry)
deriving Repr

/-- Modelled from the spec: step 2 of resolve_class — an import is used
when its imported_as equals the name or is a strict dotted prefix of
it. -/
def importHit (name : String) (i : ImportEntry) : Bool :=
  i.imported_as == name || (i.imported_as ++ ".").isPrefixOf name

/-- Modelled from the spec: the substituted resolved string of step 2,
or the name unchanged when no import matches. -/
def resolvedName (imps : List ImportEntry) (name : String) : String :=
  match imps.find? (importHit name) with
  | some i =>
    if i.imported_as == name then i.imported_item
    else i.imported_item ++ "." ++ String.drop name (i.imported_as.length + 1)
  | none => name

/-- Modelled from the spec: steps 3-5 of resolve_class, trying strict
dot-component prefixes of the resolved string as module keys, the
longest first; each i is the number of leading components kept. -/
def matchModulePre (ms : List String) (parts : List String) :
    List Nat → Option (String × String)
  | [] => none
  | i :: rest =>
    if String.intercalate "." (parts.take i) ∈ ms then
      some (String.intercalate "." (parts.take i),
        String.intercalate "." (parts.drop i))
    else matchModulePre ms parts rest

/-- Modelled from the spec: resolve_class of §4.1 — fast path on a
direct classes hit, import substitution, longest-strict-prefix module
match and recursion on the matched module and remaining suffix, bounded
by a visited set of (module, name) pairs (None on revisit) and by fuel
standing in for the spec's termination guarantee. -/
def resolveClassAux (reg : Registry) :
    Nat → List (String × String) → String → String → Option Finder.ClassId
  | 0, _, _, _ => none
  | fuel + 1, visited, ctx, name =>
    if (ctx, name) ∈ visited then none
    else if (⟨ctx, name⟩ : Finder.ClassId) ∈ reg.classes then
      some ⟨ctx, name⟩
    else
      let parts := splitOnDot (resolvedName ((alookup reg.imports ctx).getD []) name)
      match matchModulePre reg.modules parts
          ((List.range (parts.length - 1)).reverse.map (fun i => i + 1)) with
      | some (m, suffix) =>
        resolveClassAux reg fuel ((ctx, name) :: visited) m suffix
      | none => none

/-- Modelled from the spec: the resolve_class entry point, starting
from an empty visited set. -/
def resolveClass (reg : Registry) (ctx name : String) :
    Option Finder.ClassId :=
  resolveClassAux reg (reg.classes.length + reg.modules.length + 1) [] ctx name

/-- The two resolution errors of src/src/error.rs produced by
resolve_target_class. -/
inductive Error where
  | ambiguousClassName (name : String) (candidates : List String)
  | classNotFound (name : String) (module_path : Option String)
deriving DecidableEq, Repr

/-- SubclassFinder::resolve_target_class from src/src/lib.rs: with a
module, resolve_class decides between Ok and ClassNotFound; without
one, the classes keys carrying the queried name decide between
ClassNotFound, the unique hit, and AmbiguousClassName listing every
matching module. -/
def resolveTargetClass (reg : Registry) (class_name : String)
    (module_path : Option String) : Except Finder.Error Finder.ClassId :=
  match module_path with
  | some module =>
    match resolveClass reg module class_name with
    | some resolved_id => .ok resolved_id
    | none => .error (.classNotFound class_name (some module))
  | none =>
    match reg.classes.filter (fun c => c.name == class_name) with
    | [] => .error (.classNotFound class_name none)
    | [c] => .ok c
    | _ :: _ :: _ =>
      .error (.ambiguousClassName class_name
        ((reg.classes.filter (fun c => c.name == class_name)).map
          (fun c => c.module)))

end Finder

/-- Demo registry for the bare-name trichotomy: Animal defined in both
zoo and farm, Pig only in barn. -/
def regC4 : Finder.Registry :=
  ⟨[⟨"zoo", "Animal"⟩, ⟨"farm", "Animal"⟩, ⟨"barn", "Pig"⟩],
    ["zoo", "farm", "barn"], []⟩

/-! ### Parse phase with caching (parser.rs parse_files, cache.rs
parse_with_cache) -/

/-- HashMap::remove on the association-list model: drop the key's
entry. -/
def aerase {α β : Type} [BEq α] (l : List (α × β)) (k : α) :
    List (α × β) :=
  l.filter (fun p => !(p.1 == k))

namespace Cache

/-- parser.rs struct ClassDefinition (the flat-import iteration that
cache.rs stores). -/
structure ClassDefinition where
  name : String
  module_path : String
  file_path : String
  bases : List String
deriving DecidableEq, Repr

/-- parser.rs struct ParsedFile: the parse result cached per file. -/
structure ParsedFile where
  file_path : String
  module_path : String
  classes : List ClassDefinition
  imports : List Finder.ImportEntry
  is_package : Bool
deriving DecidableEq, Repr

/-- cache.rs struct CacheEntry: source-file metadata (mtime, size)
plus the cached parse. -/
structure CacheEntry where
  mtime : Nat
  size : Nat
  parsed : ParsedFile
deriving DecidableEq, Repr

/-- parser.rs parse_files: rayon's indexed par_iter + collect is an
order-preserving map of the per-file work (module-path computation and
syntactic parsing, both I/O, abstracted as the function parse) over the
input list. -/
def parseFiles (parse : String → Except String ParsedFile)
    (files : List String) : List (Except String ParsedFile) :=
  files.map parse

/-- First pass of cache.rs parse_with_cache: walk the input paths in
order, pushing a clone of the cached parse for each unchanged file
(metadata available, entry present, mtime and size equal) and
collecting every other path into files_to_parse; get_file_metadata
(filesystem I/O) is abstracted as the function meta. -/
def firstPass (meta : String → Option (Nat × Nat))
    (entries : List (String × CacheEntry)) :
    List String → List (Except String ParsedFile) × List String
  | [] => ([], [])
  | fp :: rest =>
    let p := firstPass meta entries rest
    match meta fp, alookup entries fp with
    | some (mt, sz), some entry =>
      if entry.mtime == mt && entry.size == sz then
        (Except.ok entry.parsed :: p.1, p.2)
      else (p.1, fp :: p.2)
    | some _, none => (p.1, fp :: p.2)
    | none, _ => (p.1, fp :: p.2)

/-- Second pass of cache.rs parse_with_cache: zip the missed paths with
their fresh parse results, inserting each success into the cache
(when metadata is available), evicting each failure, and pushing every
result. -/
def secondPass (meta : String → Option (Nat × Nat)) :
    List (String × Except String ParsedFile) →
    List (String × CacheEntry) →
    List (String × CacheEntry) × List (Except String ParsedFile)
  | [], entries => (entries, [])
  | (fp, r) :: rest, entries =>
    let entries' :=
      match r with
      | .ok parsed =>
        match meta fp with
        | some (mt, sz) => ainsert entries fp ⟨mt, sz, parsed⟩
        | none => entries
      | .error _ => aerase entries fp
    let p := secondPass meta rest entries'
    (p.1, r :: p.2)

/-- cache.rs parse_with_cache: cache hits are pushed during the first
pass, then the parses of the missed files are appended; returns the
result vector and the updated cache. -/
def parseWithCache (meta : String → Option (Nat × Nat))
    (parse : String → Except String ParsedFile)
    (entries : List (String × CacheEntry)) (files : List String) :
    List (Except String ParsedFile) × List (String × CacheEntry) :=
  let fp := firstPass meta entries files
  if fp.2.isEmpty then (fp.1, entries)
  else
    let sp := secondPass meta (fp.2.zip (parseFiles parse fp.2)) entries
    (fp.1 ++ sp.2, sp.1)

/-- The hit condition of the first pass, as a predicate on one path. -/
def isHit (meta : String → Option (Nat × Nat))
    (entries : List (String × CacheEntry)) (fp : String) : Bool :=
  match meta fp, alookup entries fp with
  | some (mt, sz), some entry => entry.mtime == mt && entry.size == sz
  | some _, none => false
  | none, _ => false

/-- The result the first pass pushes for a cache hit. -/
def hitPayload (entries : List (String × CacheEntry)) (fp : String) :
    Except String ParsedFile :=
  match alookup entries fp with
  | some entry => Except.ok entry.parsed
  | none => Except.error ""

end Cache

/-- Counterexample parses for the cache ordering: the parse of a.py. -/
def cexParsedA : Cache.ParsedFile := ⟨"a.py", "a", [], [], false⟩

/-- Counterexample parses for the cache ordering: the parse of b.py. -/
def cexParsedB : Cache.ParsedFile := ⟨"b.py", "b", [], [], false⟩

/-- Counterexample filesystem: both files exist with metadata (0, 0). -/
def cexMeta : String → Option (Nat × Nat) := fun _ => some (0, 0)

/-- Counterexample parser: each file parses to its ParsedFile. -/
def cexParse : String → Except String Cache.ParsedFile := fun fp =>
  if fp = "a.py" then Except.ok cexParsedA else Except.ok cexParsedB

/-- Counterexample cache: only b.py is cached, and unchanged. -/
def cexEntries : List (String × Cache.CacheEntry) :=
  [("b.py", ⟨0, 0, cexParsedB⟩)]

/-! ## Theorems -/

/-! ### Association-list lemmas -/

@[simp] theorem alookup_nil {α β : Type} [DecidableEq α] (k : α) :
    alookup ([] : List (α × β)) k = none := rfl

@[simp] theorem alookup_cons {α β : Type} [DecidableEq α]
    (p : α × β) (l : List (α × β)) (k : α) :
    alookup (p :: l) k = if p.1 = k then some p.2 else alookup l k := rfl

theorem alookup_append {α β : Type} [DecidableEq α]
    (l₁ l₂ : List (α × β)) (k : α) :
    alookup (l₁ ++ l₂) k =
      match alookup l₁ k with
      | some v => some v
      | none => alookup l₂ k := by
  induction l₁ with
  | nil => simp
  | cons p rest ih =>
    by_cases h : p.1 = k <;> simp [h, ih]

theorem alookup_mem {α β : Type} [DecidableEq α]
    {l : List (α × β)} {k : α} {v : β} (h : alookup l k = some v) :
    (k, v) ∈ l := by
  induction l with
  | nil => simp at h
  | cons p rest ih =>
    obtain ⟨a, b⟩ := p
    by_cases hp : a = k
    · simp [hp] at h
      subst hp
      subst h
      exact List.mem_cons_self _ _
    · simp [hp] at h
      exact List.mem_cons_of_mem _ (ih h)

theorem alookup_isSome_of_mem {α β : Type} [DecidableEq α]
    {l : List (α × β)} {k : α} {v : β} (h : (k, v) ∈ l) :
    (alookup l k).isSome := by
  induction l with
  | nil => simp at h
  | cons p rest ih =>
    rcases List.mem_cons.mp h with h | h
    · subst h; simp
    · by_cases hp : p.1 = k <;> simp [hp, ih h]

/-! ### String and path helper lemmas -/

theorem string_mk_toList (s : String) : String.mk s.toList = s := by
  cases s; rfl

theorem string_toList_append (s t : String) :
    (s ++ t).toList = s.toList ++ t.toList := by
  cases s; cases t; rfl

theorem stripExt_append_py (stem : String) (h : stem ≠ "") :
    stripExt (stem ++ ".py") = stem := by
  have htl : (stem ++ ".py").toList = stem.toList ++ ['.', 'p', 'y'] := by
    rw [string_toList_append]; rfl
  have hne : stem.toList ≠ [] := by
    intro hx
    apply h
    rw [← string_mk_toList stem, hx]
  simp only [stripExt]
  rw [htl]
  rw [if_pos ?hc]
  case hc =>
    cases hx : stem.toList with
    | nil => exact absurd hx hne
    | cons c rest => simp [hx]
  have hrev : (stem.toList ++ ['.', 'p', 'y']).reverse
      = 'y' :: 'p' :: '.' :: stem.toList.reverse := by simp
  rw [hrev]
  have hdw : List.dropWhile (fun c => c ≠ '.')
        ('y' :: 'p' :: '.' :: stem.toList.reverse)
      = '.' :: stem.toList.reverse := by
    simp [List.dropWhile]
  rw [hdw]
  simp [string_mk_toList]

theorem mapLast_concat {α : Type} (f : α → α) :
    ∀ (l : List α) (a : α), mapLast f (l ++ [a]) = l ++ [f a]
  | [], _ => rfl
  | [_], _ => rfl
  | x :: y :: t, a => by
    have ih := mapLast_concat f (y :: t) a
    show x :: mapLast f ((y :: t) ++ [a]) = x :: ((y :: t) ++ [f a])
    rw [ih]

/-! ### C8 and C9 -/

/-- C8: relative-import dot resolution follows PEP-328-style semantics.
For a module path with k dot components and a relative import of level
L >= 1: if the importing module is a package, the resolution base keeps
the first k-(L-1) components (level 1 is the current package); if it is a
regular module, the base keeps the first k-L components (level 1 is its
parent package).  Both utils::resolve_relative_import_base and
parser::resolve_relative_module obey this. -/
theorem relative_import_level_semantics
    (current : String) (comps : List String) (L : Nat)
    (hc : comps ≠ []) (hL : 1 ≤ L)
    (hsplit : splitOnDot current = comps)
    (hjoin : current = String.intercalate "." comps) :
    resolveRelativeImportBase current L true =
      some (String.intercalate "." (comps.take (comps.length - (L - 1)))) ∧
    resolveRelativeImportBase current L false =
      some (String.intercalate "." (comps.take (comps.length - L))) ∧
    resolveRelativeModule current L true =
      String.intercalate "." (comps.take (comps.length - (L - 1))) ∧
    resolveRelativeModule current L false =
      String.intercalate "." (comps.take (comps.length - L)) := by
  have hL0 : L ≠ 0 := by omega
  have hlen : 1 ≤ comps.length := List.length_pos.mpr hc
  refine ⟨?_, ?_, ?_, ?_⟩
  · simp only [resolveRelativeImportBase]
    rw [if_neg hL0, hsplit, if_pos (trivial : True)]
    by_cases h1 : L = 1
    · rw [if_pos h1]
      subst h1
      simp only [Nat.sub_self, Nat.sub_zero]
      rw [List.take_length, hjoin]
    · rw [if_neg h1]
      by_cases h0 : comps.length - (L - 1) = 0
      · rw [if_pos h0, h0, List.take_zero]
        rfl
      · rw [if_neg h0]
  · simp only [resolveRelativeImportBase]
    rw [if_neg hL0, hsplit, if_neg Bool.false_ne_true]
    by_cases h0 : comps.length - L = 0
    · rw [if_pos h0, h0, List.take_zero]
      rfl
    · rw [if_neg h0]
  · simp only [resolveRelativeModule]
    rw [hsplit,
      show (if True then L - 1 else L) = L - 1 from if_pos trivial]
    by_cases hb : comps.length ≤ L - 1
    · rw [if_pos hb]
      have h0 : comps.length - (L - 1) = 0 := by omega
      rw [h0, List.take_zero]
      rfl
    · rw [if_neg hb]
  · simp only [resolveRelativeModule]
    rw [hsplit,
      show (if (false = true) then L - 1 else L) = L from if_neg Bool.false_ne_true]
    by_cases hb : comps.length ≤ L
    · rw [if_pos hb]
      have h0 : comps.length - L = 0 := by omega
      rw [h0, List.take_zero]
      rfl
    · rw [if_neg hb]

/-- Witness for C8 at a concrete input. -/
theorem relative_import_level_semantics_witness :
    resolveRelativeImportBase "pkg.sub.mod" 2 true = some "pkg.sub" ∧
    resolveRelativeImportBase "pkg.sub.mod" 2 false = some "pkg" ∧
    resolveRelativeModule "pkg.sub.mod" 2 true = "pkg.sub" ∧
    resolveRelativeModule "pkg.sub.mod" 2 false = "pkg" := by
  have h := relative_import_level_semantics "pkg.sub.mod" ["pkg", "sub", "mod"] 2
    (by decide) (by decide) (by decide) (by decide)
  obtain ⟨h1, h2, h3, h4⟩ := h
  exact ⟨h1.trans (by decide), h2.trans (by decide),
    h3.trans (by decide), h4.trans (by decide)⟩

/-- C9: module-path derivation.  For a file strictly under the root, the
module path is the relative path with the source extension stripped and
separators becoming dots; an `__init__` file maps to its parent package;
a root-level `__init__` file yields none. -/
theorem module_path_derivation (dirs : List String) (stem : String)
    (h : stem ≠ "") :
    filePathToModulePath (dirs ++ [stem ++ ".py"]) =
      if stem = "__init__" then
        (if dirs = [] then none else some (String.intercalate "." dirs))
      else some (String.intercalate "." (dirs ++ [stem])) := by
  simp only [filePathToModulePath]
  rw [mapLast_concat, stripExt_append_py stem h]
  by_cases hs : stem = "__init__"
  · subst hs
    cases dirs with
    | nil => decide
    | cons d ds =>
      have hl : (d :: (ds ++ ["__init__"])).getLast? = some "__init__" := by
        rw [show d :: (ds ++ ["__init__"]) = (d :: ds) ++ ["__init__"] from rfl,
          List.getLast?_concat]
      have hdl : (d :: (ds ++ ["__init__"])).dropLast = d :: ds := by
        rw [show d :: (ds ++ ["__init__"]) = (d :: ds) ++ ["__init__"] from rfl,
          List.dropLast_concat]
      simp [hl, hdl]
  · rw [if_neg hs]
    cases dirs with
    | nil => simp [hs]
    | cons d ds =>
      have hl : (d :: (ds ++ [stem])).getLast? = some stem := by
        rw [show d :: (ds ++ [stem]) = (d :: ds) ++ [stem] from rfl,
          List.getLast?_concat]
      simp [hl, hs]

/-- Witness for C9 at concrete inputs: a plain module, a package
`__init__` file, and a root-level `__init__` file. -/
theorem module_path_derivation_witness :
    filePathToModulePath ["foo", "bar", "baz.py"] = some "foo.bar.baz" ∧
    filePathToModulePath ["pkg", "__init__.py"] = some "pkg" ∧
    filePathToModulePath ["__init__.py"] = none := by
  refine ⟨?_, ?_, ?_⟩
  · have h := module_path_derivation ["foo", "bar"] "baz" (by decide)
    exact (show filePathToModulePath ["foo", "bar", "baz.py"]
        = filePathToModulePath (["foo", "bar"] ++ ["baz" ++ ".py"]) by rfl).trans
      (h.trans (by decide))
  · have h := module_path_derivation ["pkg"] "__init__" (by decide)
    exact (show filePathToModulePath ["pkg", "__init__.py"]
        = filePathToModulePath (["pkg"] ++ ["__init__" ++ ".py"]) by rfl).trans
      (h.trans (by decide))
  · have h := module_path_derivation [] "__init__" (by decide)
    exact (show filePathToModulePath ["__init__.py"]
        = filePathToModulePath ([] ++ ["__init__" ++ ".py"]) by rfl).trans
      (h.trans (by decide))

/-! ### Re-export chain lemmas, C3 and C10 -/

@[simp] theorem reChain_zero (r : ClassRegistry) (id : ClassId) :
    reChain r 0 id = some id := rfl

@[simp] theorem reChain_succ (r : ClassRegistry) (n : Nat) (id : ClassId) :
    reChain r (n + 1) id
      = (reChain r n id).bind (fun c => alookup r.re_exports c) := rfl

theorem reChain_front (r : ClassRegistry) {id orig : ClassId}
    (h : alookup r.re_exports id = some orig) :
    ∀ n, reChain r (n + 1) id = reChain r n orig := by
  intro n
  induction n with
  | zero => simp [h]
  | succ n ih =>
    rw [reChain_succ, ih, ← reChain_succ]

theorem resolveThroughAux_some (r : ClassRegistry) :
    ∀ (f : Nat) (visited : List ClassId) (current c : ClassId),
    resolveThroughAux r f visited current = some c →
    alookup r.re_exports c = none ∧ (alookup r.classes c).isSome ∧
      ∃ n, reChain r n current = some c := by
  intro f
  induction f with
  | zero =>
    intro visited current c h
    simp [resolveThroughAux] at h
  | succ f ih =>
    intro visited current c h
    simp only [resolveThroughAux] at h
    by_cases hv : current ∈ visited
    · rw [if_pos hv] at h
      cases h
    · rw [if_neg hv] at h
      cases hre : alookup r.re_exports current with
      | some orig =>
        rw [hre] at h
        obtain ⟨h1, h2, n, hn⟩ := ih _ _ _ h
        exact ⟨h1, h2, n + 1, (reChain_front r hre n).trans hn⟩
      | none =>
        rw [hre] at h
        by_cases hc : (alookup r.classes current).isSome
        · rw [if_pos hc] at h
          injection h with h
          subst h
          exact ⟨hre, hc, 0, rfl⟩
        · rw [if_neg hc] at h
          cases h

/-- C3: cycle safety of resolution.  For every registry whose re-export
chain from a (module, name) pair never leaves the re-export key set (in
particular, a cyclic chain), resolve_through_reexports terminates (it is a
total function of the embedding) and returns none instead of looping. -/
theorem resolution_cycle_safe (r : ClassRegistry) (id : ClassId)
    (hcyc : ∀ n, reChain r n id ≠ none) :
    resolveThroughReexports r id = none := by
  cases h : resolveThroughReexports r id with
  | none => rfl
  | some c =>
    obtain ⟨hre, _, n, hn⟩ := resolveThroughAux_some r _ _ _ _ h
    have hnone : reChain r (n + 1) id = none := by
      rw [reChain_succ, hn]
      simp [hre]
    exact absurd hnone (hcyc (n + 1))

/-- Witness for C3: a registry built from two files whose imports close a
re-export cycle; the chain from (a, X) never dies and resolution returns
none. -/
theorem resolution_cycle_safe_witness :
    (∀ n, reChain (buildRegistry [cycFileA, cycFileB]) n ⟨"a", "X"⟩ ≠ none) ∧
    resolveThroughReexports (buildRegistry [cycFileA, cycFileB]) ⟨"a", "X"⟩
      = none := by
  have key : ∀ n,
      reChain (buildRegistry [cycFileA, cycFileB]) n ⟨"a", "X"⟩
          = some ⟨"a", "X"⟩ ∨
      reChain (buildRegistry [cycFileA, cycFileB]) n ⟨"a", "X"⟩
          = some ⟨"b", "X"⟩ := by
    intro n
    induction n with
    | zero => left; rfl
    | succ n ih =>
      rcases ih with h | h
      · right
        rw [reChain_succ, h]
        decide
      · left
        rw [reChain_succ, h]
        decide
  have hcyc : ∀ n,
      reChain (buildRegistry [cycFileA, cycFileB]) n ⟨"a", "X"⟩ ≠ none := by
    intro n
    rcases key n with h | h <;> simp [h]
  exact ⟨hcyc, resolution_cycle_safe _ _ hcyc⟩

/-! ### Map-operation lemmas and the name-index invariant -/

theorem alookup_map_replace {α β : Type} [DecidableEq α]
    (k k' : α) (v : β) :
    ∀ l : List (α × β),
    alookup (l.map (fun p => if p.1 = k then (k, v) else p)) k'
      = if k = k' then (alookup l k).map (fun _ => v) else alookup l k' := by
  intro l
  induction l with
  | nil => by_cases h : k = k' <;> simp [h]
  | cons p rest ih =>
    obtain ⟨a, b⟩ := p
    by_cases h1 : a = k
    · subst h1
      by_cases h2 : a = k'
      · subst h2
        simp
      · simp [h2, ih]
    · by_cases h2 : a = k'
      · subst h2
        simp [h1, Ne.symm h1]
      · simp [h1, h2, ih]

theorem alookup_ainsert {α β : Type} [DecidableEq α]
    (l : List (α × β)) (k k' : α) (v : β) :
    alookup (ainsert l k v) k'
      = if k = k' then some v else alookup l k' := by
  unfold ainsert
  by_cases hp : (alookup l k).isSome
  · obtain ⟨w, hw⟩ := Option.isSome_iff_exists.mp hp
    rw [if_pos hp, alookup_map_replace]
    by_cases h : k = k'
    · subst h
      simp [hw]
    · simp [h]
  · rw [if_neg hp, alookup_append]
    by_cases h : k = k'
    · subst h
      have hn : alookup l k = none := Option.not_isSome_iff_eq_none.mp hp
      simp [hn]
    · cases hl : alookup l k' <;> simp [h]

theorem alookup_apush {α β : Type} [DecidableEq α]
    (l : List (α × List β)) (k k' : α) (v : β) :
    alookup (apush l k v) k'
      = if k = k' then some ((alookup l k).getD [] ++ [v])
        else alookup l k' := by
  unfold apush
  cases h : alookup l k with
  | some old => rw [alookup_ainsert]; simp [h]
  | none =>
    rw [alookup_append]
    by_cases hk : k = k'
    · subst hk
      simp [h]
    · cases hl : alookup l k' <;> simp [hk]

theorem nameIndexInv_addClass (r : ClassRegistry) (c : ClassDefinition)
    (h : NameIndexInv r) : NameIndexInv (addClass r c) := by
  intro name ms hms id hid
  simp only [addClass] at hms ⊢
  rw [alookup_apush] at hms
  rw [alookup_ainsert]
  by_cases heq : (⟨c.module_path, c.name⟩ : ClassId) = id
  · simp [heq]
  · rw [if_neg heq]
    by_cases hn : c.name = name
    · rw [if_pos hn] at hms
      injection hms with hms
      subst hms
      rcases List.mem_append.mp hid with hold | hnew
      · cases ho : alookup r.name_index c.name with
        | none => simp [ho] at hold
        | some oldms =>
          rw [ho] at hold
          exact h c.name oldms ho id hold
      · simp at hnew
        exact absurd hnew.symm heq
    · rw [if_neg hn] at hms
      exact h name ms hms id hid

theorem nameIndexInv_foldClasses (cs : List ClassDefinition) :
    ∀ r : ClassRegistry, NameIndexInv r →
    NameIndexInv (cs.foldl addClass r) := by
  induction cs with
  | nil => intro r h; exact h
  | cons c rest ih =>
    intro r h
    exact ih _ (nameIndexInv_addClass r c h)

theorem nameIndexInv_addFile (r : ClassRegistry) (f : ParsedFile)
    (h : NameIndexInv r) : NameIndexInv (addFile r f) := by
  unfold addFile
  apply nameIndexInv_foldClasses
  cases hp : f.is_package
  · rw [if_neg Bool.false_ne_true]
    exact fun name ms hms => h name ms hms
  · rw [if_pos rfl]
    exact fun name ms hms => h name ms hms

theorem nameIndexInv_buildRaw (files : List ParsedFile) :
    NameIndexInv (buildRegistryRaw files) := by
  have main : ∀ (fs : List ParsedFile) (r : ClassRegistry), NameIndexInv r →
      NameIndexInv (fs.foldl addFile r) := by
    intro fs
    induction fs with
    | nil => intro r h; exact h
    | cons f rest ih => intro r h; exact ih _ (nameIndexInv_addFile r f h)
  exact main files emptyRegistry (fun name ms hms => by simp [emptyRegistry] at hms)

theorem buildReexportsAux_fields :
    ∀ (f : Nat) (r : ClassRegistry),
    (buildReexportsAux f r).classes = r.classes ∧
    (buildReexportsAux f r).name_index = r.name_index ∧
    (buildReexportsAux f r).imports = r.imports ∧
    (buildReexportsAux f r).packages = r.packages := by
  intro f
  induction f with
  | zero => intro r; exact ⟨rfl, rfl, rfl, rfl⟩
  | succ f ih =>
    intro r
    simp only [buildReexportsAux]
    by_cases hc : (reexportPass r).re_exports.length = r.re_exports.length
    · rw [if_pos hc]
      exact ⟨rfl, rfl, rfl, rfl⟩
    · rw [if_neg hc]
      exact ih (reexportPass r)

theorem nameIndexInv_buildRegistry (files : List ParsedFile) :
    NameIndexInv (buildRegistry files) := by
  intro name ms hms id hid
  unfold buildRegistry buildReexports at hms ⊢
  obtain ⟨hc, hn, -, -⟩ :=
    buildReexportsAux_fields (regBound (buildRegistryRaw files) + 1)
      (buildRegistryRaw files)
  rw [hn] at hms
  rw [hc]
  exact nameIndexInv_buildRaw files name ms hms id hid

/-! ### Soundness of the resolution helpers -/

theorem tryModulePrefixes_some (r : ClassRegistry) (parts : List String)
    (cn : String) :
    ∀ (idxs : List Nat) (id : ClassId),
    tryModulePrefixes r parts cn idxs = some id →
    ∃ m, resolveThroughReexports r ⟨m, cn⟩ = some id := by
  intro idxs
  induction idxs with
  | nil => intro id h; simp [tryModulePrefixes] at h
  | cons i rest ih =>
    intro id h
    simp only [tryModulePrefixes] at h
    cases hres : resolveThroughReexports r
        ⟨String.intercalate "." (parts.take (i + 1)), cn⟩ with
    | some res =>
      rw [hres] at h
      injection h with h
      subst h
      exact ⟨_, hres⟩
    | none =>
      rw [hres] at h
      exact ih id h

theorem findClassByQualifiedName_some (r : ClassRegistry) (q : String)
    (id : ClassId) (h : findClassByQualifiedName r q = some id) :
    ∃ m cn, resolveThroughReexports r ⟨m, cn⟩ = some id := by
  simp only [findClassByQualifiedName] at h
  by_cases he : (splitOnDot q).isEmpty
  · rw [if_pos he] at h; cases h
  · rw [if_neg he] at h
    obtain ⟨m, hm⟩ := tryModulePrefixes_some r _ _ _ _ h
    exact ⟨m, _, hm⟩

theorem resolveAttrViaImport_some (r : ClassRegistry) (parts : List String)
    (cn ctx : String) (id : ClassId)
    (h : resolveAttrViaImport r parts cn ctx = some id) :
    ∃ q, resolveThroughReexports r q = some id := by
  simp only [resolveAttrViaImport] at h
  cases him : alookup r.imports ctx with
  | none => rw [him] at h; cases h
  | some imps =>
    rw [him] at h
    dsimp only at h
    cases hh : parts.head? with
    | none => rw [hh] at h; cases h
    | some fp =>
      rw [hh] at h
      dsimp only at h
      cases hrn : resolveName fp imps ctx (r.packages.contains ctx) with
      | none => rw [hrn] at h; cases h
      | some resolved =>
        rw [hrn] at h
        dsimp only at h
        exact ⟨_, h⟩

theorem resolveAttrLoop_some (r : ClassRegistry) (parts : List String)
    (cn ctx : String) :
    ∀ (idxs : List Nat) (id : ClassId),
    resolveAttrLoop r parts cn ctx idxs = some id →
    ∃ q, resolveThroughReexports r q = some id := by
  intro idxs
  induction idxs with
  | nil => intro id h; simp [resolveAttrLoop] at h
  | cons i rest ih =>
    intro id h
    simp only [resolveAttrLoop] at h
    cases hvi : resolveAttrViaImport r parts cn ctx with
    | some res =>
      rw [hvi] at h
      injection h with h
      subst h
      exact resolveAttrViaImport_some r parts cn ctx _ hvi
    | none =>
      rw [hvi] at h
      cases hres : resolveThroughReexports r
          ⟨String.intercalate "." (parts.take (i + 1)), cn⟩ with
      | some res =>
        rw [hres] at h
        injection h with h
        subst h
        exact ⟨_, hres⟩
      | none =>
        rw [hres] at h
        exact ih id h

theorem resolveBaseSimpleFallback_some (r : ClassRegistry)
    (name ctx : String) (id : ClassId) (hInv : NameIndexInv r)
    (h : resolveBaseSimpleFallback r name ctx = some id) :
    (alookup r.classes id).isSome := by
  simp only [resolveBaseSimpleFallback] at h
  cases hres : resolveThroughReexports r ⟨ctx, name⟩ with
  | some res =>
    rw [hres] at h
    dsimp only at h
    injection h with h
    subst h
    exact (resolveThroughAux_some r _ _ _ _ hres).2.1
  | none =>
    rw [hres] at h
    dsimp only at h
    cases hfn : findByName r name with
    | none => rw [hfn] at h; cases h
    | some ms =>
      rw [hfn] at h
      dsimp only at h
      by_cases hlen : ms.length = 1
      · rw [if_pos hlen] at h
        have hid : id ∈ ms := by
          cases ms with
          | nil => cases h
          | cons a t =>
            injection h with h
            subst h
            exact List.mem_cons_self _ _
        exact hInv name ms hfn id hid
      · rw [if_neg hlen] at h
        cases h

/-- C10: resolution canonicality.  For every registry built from parsed
files, whenever resolve_through_reexports or resolve_base returns
Some(id), the id is a key of the registry's classes map: resolution never
yields a re-export alias or an unregistered identifier. -/
theorem resolution_canonical (files : List ParsedFile) :
    (∀ id0 id : ClassId,
      resolveThroughReexports (buildRegistry files) id0 = some id →
      (alookup (buildRegistry files).classes id).isSome) ∧
    (∀ (b : BaseClass) (ctx : String) (id : ClassId),
      resolveBase (buildRegistry files) b ctx = some id →
      (alookup (buildRegistry files).classes id).isSome) := by
  have hthru : ∀ id0 id : ClassId,
      resolveThroughReexports (buildRegistry files) id0 = some id →
      (alookup (buildRegistry files).classes id).isSome :=
    fun id0 id h => (resolveThroughAux_some _ _ _ _ _ h).2.1
  refine ⟨hthru, ?_⟩
  intro b ctx id h
  have hInv : NameIndexInv (buildRegistry files) :=
    nameIndexInv_buildRegistry files
  cases b with
  | simple name =>
    simp only [resolveBase] at h
    cases him : alookup (buildRegistry files).imports ctx with
    | none =>
      rw [him] at h
      dsimp only at h
      exact resolveBaseSimpleFallback_some _ _ _ _ hInv h
    | some imps =>
      rw [him] at h
      dsimp only at h
      cases hrn : resolveName name imps ctx
          ((buildRegistry files).packages.contains ctx) with
      | none =>
        rw [hrn] at h
        dsimp only at h
        exact resolveBaseSimpleFallback_some _ _ _ _ hInv h
      | some q =>
        rw [hrn] at h
        dsimp only at h
        obtain ⟨m, cn, hres⟩ := findClassByQualifiedName_some _ _ _ h
        exact hthru _ _ hres
  | attr parts =>
    simp only [resolveBase] at h
    by_cases hlt : parts.length < 2
    · rw [if_pos hlt] at h; cases h
    · rw [if_neg hlt] at h
      obtain ⟨q, hres⟩ := resolveAttrLoop_some _ _ _ _ _ _ h
      exact hthru _ _ hres

/-- Witness for C10: both resolution entry points applied on the
re-export demo registry return canonical ids that are registered
classes. -/
theorem resolution_canonical_witness :
    resolveThroughReexports
        (buildRegistry [regDemoBase, regDemoInitFile, regDemoPets])
        ⟨"animals", "Animal"⟩ = some ⟨"animals.base", "Animal"⟩ ∧
    (alookup (buildRegistry [regDemoBase, regDemoInitFile, regDemoPets]).classes
        ⟨"animals.base", "Animal"⟩).isSome ∧
    resolveBase (buildRegistry [regDemoBase, regDemoInitFile, regDemoPets])
        (.simple "Animal") "pets" = some ⟨"animals.base", "Animal"⟩ := by
  have h1 : resolveThroughReexports
      (buildRegistry [regDemoBase, regDemoInitFile, regDemoPets])
      ⟨"animals", "Animal"⟩ = some ⟨"animals.base", "Animal"⟩ := by decide
  have h2 : resolveBase (buildRegistry [regDemoBase, regDemoInitFile, regDemoPets])
      (.simple "Animal") "pets" = some ⟨"animals.base", "Animal"⟩ := by decide
  exact ⟨h1,
    (resolution_canonical [regDemoBase, regDemoInitFile, regDemoPets]).1
      _ _ h1, h2⟩

/-! ### Module-registration invariants and C5 -/

theorem alookup_isSome_iff_mem_keys {α β : Type} [DecidableEq α]
    (l : List (α × β)) (k : α) :
    (alookup l k).isSome ↔ k ∈ l.map Prod.fst := by
  induction l with
  | nil => simp
  | cons p rest ih =>
    by_cases h : p.1 = k
    · simp [h]
    · simp only [alookup_cons, if_neg h, List.map_cons, List.mem_cons]
      rw [ih]
      constructor
      · exact Or.inr
      · rintro (hk | hk)
        · exact absurd hk.symm h
        · exact hk

theorem addClass_other_fields (r : ClassRegistry) (c : ClassDefinition) :
    (addClass r c).imports = r.imports ∧
    (addClass r c).re_exports = r.re_exports ∧
    (addClass r c).packages = r.packages :=
  ⟨rfl, rfl, rfl⟩

theorem foldClasses_other_fields (cs : List ClassDefinition) :
    ∀ r : ClassRegistry,
    (cs.foldl addClass r).imports = r.imports ∧
    (cs.foldl addClass r).re_exports = r.re_exports := by
  induction cs with
  | nil => intro r; exact ⟨rfl, rfl⟩
  | cons c rest ih =>
    intro r
    exact ⟨(ih (addClass r c)).1, (ih (addClass r c)).2⟩

theorem addFile_re_exports (r : ClassRegistry) (f : ParsedFile) :
    (addFile r f).re_exports = r.re_exports := by
  simp only [addFile]
  split
  · exact (foldClasses_other_fields f.classes _).2
  · exact (foldClasses_other_fields f.classes _).2

theorem buildRaw_re_exports (files : List ParsedFile) :
    (buildRegistryRaw files).re_exports = [] := by
  have main : ∀ (fs : List ParsedFile) (r : ClassRegistry),
      (fs.foldl addFile r).re_exports = r.re_exports := by
    intro fs
    induction fs with
    | nil => intro r; rfl
    | cons f rest ih =>
      intro r
      rw [List.foldl_cons, ih (addFile r f), addFile_re_exports]
  exact main files emptyRegistry

theorem classModulesReg_foldClasses (M : String) (cs : List ClassDefinition)
    (hcs : ∀ c ∈ cs, c.module_path = M) :
    ∀ r : ClassRegistry, ClassModulesReg r →
    (alookup r.imports M).isSome →
    ClassModulesReg (cs.foldl addClass r) := by
  induction cs with
  | nil => intro r h _; exact h
  | cons c rest ih =>
    intro r h hM
    have hmem : c.module_path = M := hcs c (List.mem_cons_self _ _)
    have hrest : ∀ c' ∈ rest, c'.module_path = M :=
      fun c' hc' => hcs c' (List.mem_cons_of_mem _ hc')
    refine ih hrest (addClass r c) ?_ ?_
    · intro id hid
      simp only [addClass] at hid ⊢
      rw [alookup_ainsert] at hid
      by_cases he : (⟨c.module_path, c.name⟩ : ClassId) = id
      · rw [← he]
        simpa [hmem] using hM
      · rw [if_neg he] at hid
        exact h id hid
    · exact hM

theorem classModulesReg_addFile_core (r : ClassRegistry) (mp : String)
    (imps : List Import) (nidx : List (String × List ClassId))
    (pkgs : List String) (h : ClassModulesReg r) :
    ClassModulesReg
      ⟨r.classes, nidx, ainsert r.imports mp imps, r.re_exports, pkgs⟩ ∧
    (alookup (ainsert r.imports mp imps) mp).isSome := by
  constructor
  · intro id hid
    have hid' : (alookup r.classes id).isSome := hid
    show (alookup (ainsert r.imports mp imps) id.module_path).isSome
    rw [alookup_ainsert]
    by_cases he : mp = id.module_path
    · simp [he]
    · rw [if_neg he]
      exact h id hid'
  · rw [alookup_ainsert, if_pos rfl]
    rfl

theorem classModulesReg_addFile (r : ClassRegistry) (f : ParsedFile)
    (hwf : ∀ c ∈ f.classes, c.module_path = f.module_path)
    (h : ClassModulesReg r) : ClassModulesReg (addFile r f) := by
  simp only [addFile]
  split
  · obtain ⟨h1, h2⟩ := classModulesReg_addFile_core r f.module_path f.imports
      r.name_index (sinsert r.packages f.module_path) h
    exact classModulesReg_foldClasses f.module_path f.classes hwf _ h1 h2
  · obtain ⟨h1, h2⟩ := classModulesReg_addFile_core r f.module_path f.imports
      r.name_index r.packages h
    exact classModulesReg_foldClasses f.module_path f.classes hwf _ h1 h2

theorem classModulesReg_buildRaw (files : List ParsedFile)
    (hwf : WellFormedFiles files) :
    ClassModulesReg (buildRegistryRaw files) := by
  have main : ∀ (fs : List ParsedFile) (r : ClassRegistry),
      (∀ f ∈ fs, ∀ c ∈ f.classes, c.module_path = f.module_path) →
      ClassModulesReg r → ClassModulesReg (fs.foldl addFile r) := by
    intro fs
    induction fs with
    | nil => intro r _ h; exact h
    | cons f rest ih =>
      intro r hfs h
      exact ih _ (fun f' hf' => hfs f' (List.mem_cons_of_mem _ hf'))
        (classModulesReg_addFile r f (hfs f (List.mem_cons_self _ _)) h)
  exact main files emptyRegistry hwf (fun id hid => by simp [emptyRegistry] at hid)

theorem reexportCandidatesOfImport_key (r : ClassRegistry) (mp : String)
    (imp : Import) (pr : ClassId × ClassId)
    (h : pr ∈ reexportCandidatesOfImport r mp imp) :
    pr.1.module_path = mp := by
  cases imp with
  | module m al => simp [reexportCandidatesOfImport] at h
  | fromImport m names =>
    simp only [reexportCandidatesOfImport, List.mem_filterMap] at h
    obtain ⟨p, _, hp⟩ := h
    by_cases hc : (alookup r.classes ⟨m, p.1⟩).isSome
        || (alookup r.re_exports ⟨m, p.1⟩).isSome
    · rw [if_pos hc] at hp
      injection hp with hp
      subst hp
      rfl
    · rw [if_neg hc] at hp
      cases hp
  | relativeFrom level rmod names =>
    simp only [reexportCandidatesOfImport] at h
    cases hb : resolveRelativeImportWithContext mp level
        (r.packages.contains mp) with
    | none => rw [hb] at h; simp at h
    | some base =>
      rw [hb] at h
      simp only [List.mem_filterMap] at h
      obtain ⟨p, _, hp⟩ := h
      set om := (match rmod with
        | some m => if base = "" then m else base ++ "." ++ m
        | none => base) with hom
      by_cases hc : (alookup r.classes ⟨om, p.1⟩).isSome
          || (alookup r.re_exports ⟨om, p.1⟩).isSome
      · rw [if_pos hc] at hp
        injection hp with hp
        subst hp
        rfl
      · rw [if_neg hc] at hp
        cases hp

theorem reexportCandidates_key (r : ClassRegistry) (pr : ClassId × ClassId)
    (h : pr ∈ reexportCandidates r) :
    (alookup r.imports pr.1.module_path).isSome := by
  simp only [reexportCandidates, List.mem_flatMap] at h
  obtain ⟨entry, hentry, imp, himp, hpr⟩ := h
  have hkey := reexportCandidatesOfImport_key r entry.1 imp pr hpr
  rw [hkey]
  exact alookup_isSome_of_mem (show (entry.1, entry.2) ∈ r.imports by
    simpa using hentry)

theorem mem_addNewReexports (x : ClassId × ClassId) :
    ∀ (cands re : List (ClassId × ClassId)),
    x ∈ addNewReexports re cands → x ∈ re ∨ x ∈ cands := by
  intro cands
  induction cands with
  | nil => intro re h; exact Or.inl h
  | cons c rest ih =>
    intro re h
    obtain ⟨rid, oid⟩ := c
    simp only [addNewReexports] at h
    by_cases hv : alookup re rid = none
    · rw [if_pos hv] at h
      rcases ih _ h with hre | hc
      · rcases List.mem_append.mp hre with hre | hre
        · exact Or.inl hre
        · simp at hre
          subst hre
          exact Or.inr (List.mem_cons_self _ _)
      · exact Or.inr (List.mem_cons_of_mem _ hc)
    · rw [if_neg hv] at h
      rcases ih _ h with hre | hc
      · exact Or.inl hre
      · exact Or.inr (List.mem_cons_of_mem _ hc)

theorem reexportModulesReg_pass (r : ClassRegistry)
    (h : ReexportModulesReg r) : ReexportModulesReg (reexportPass r) := by
  intro p hp
  simp only [reexportPass] at hp
  rcases mem_addNewReexports p _ _ hp with hre | hc
  · exact h p hre
  · exact reexportCandidates_key r p hc

theorem classModulesReg_pass (r : ClassRegistry)
    (h : ClassModulesReg r) : ClassModulesReg (reexportPass r) := by
  intro id hid
  exact h id hid

theorem invariants_buildReexportsAux :
    ∀ (f : Nat) (r : ClassRegistry),
    ClassModulesReg r → ReexportModulesReg r →
    ClassModulesReg (buildReexportsAux f r) ∧
      ReexportModulesReg (buildReexportsAux f r) := by
  intro f
  induction f with
  | zero => intro r h1 h2; exact ⟨h1, h2⟩
  | succ f ih =>
    intro r h1 h2
    simp only [buildReexportsAux]
    by_cases hc : (reexportPass r).re_exports.length = r.re_exports.length
    · rw [if_pos hc]
      exact ⟨classModulesReg_pass r h1, reexportModulesReg_pass r h2⟩
    · rw [if_neg hc]
      exact ih _ (classModulesReg_pass r h1) (reexportModulesReg_pass r h2)

theorem invariants_buildRegistry (files : List ParsedFile)
    (hwf : WellFormedFiles files) :
    ClassModulesReg (buildRegistry files) ∧
      ReexportModulesReg (buildRegistry files) := by
  unfold buildRegistry buildReexports
  apply invariants_buildReexportsAux
  · exact classModulesReg_buildRaw files hwf
  · intro p hp
    rw [buildRaw_re_exports] at hp
    cases hp

theorem resolveThrough_none_of_unregistered (r : ClassRegistry)
    (id : ClassId) (h1 : ClassModulesReg r) (h2 : ReexportModulesReg r)
    (hm : alookup r.imports id.module_path = none) :
    resolveThroughReexports r id = none := by
  unfold resolveThroughReexports resolveThroughAux
  rw [if_neg (by simp : ¬ id ∈ ([] : List ClassId))]
  cases hre : alookup r.re_exports id with
  | some v =>
    have := h2 (id, v) (alookup_mem hre)
    rw [hm] at this
    cases this
  | none =>
    by_cases hc : (alookup r.classes id).isSome
    · have := h1 id hc
      rw [hm] at this
      cases this
    · rw [if_neg hc]

theorem tryModulePrefixes_none (r : ClassRegistry) (parts : List String)
    (cn : String) :
    ∀ idxs : List Nat,
    (∀ i ∈ idxs, resolveThroughReexports r
      ⟨String.intercalate "." (parts.take (i + 1)), cn⟩ = none) →
    tryModulePrefixes r parts cn idxs = none := by
  intro idxs
  induction idxs with
  | nil => intro _; rfl
  | cons i rest ih =>
    intro hall
    simp only [tryModulePrefixes]
    rw [hall i (List.mem_cons_self _ _)]
    exact ih (fun j hj => hall j (List.mem_cons_of_mem _ hj))

theorem tryModulePrefixes_some_mem (r : ClassRegistry) (parts : List String)
    (cn : String) :
    ∀ (idxs : List Nat) (id : ClassId),
    tryModulePrefixes r parts cn idxs = some id →
    ∃ i ∈ idxs, resolveThroughReexports r
      ⟨String.intercalate "." (parts.take (i + 1)), cn⟩ = some id := by
  intro idxs
  induction idxs with
  | nil => intro id h; simp [tryModulePrefixes] at h
  | cons i rest ih =>
    intro id h
    simp only [tryModulePrefixes] at h
    cases hres : resolveThroughReexports r
        ⟨String.intercalate "." (parts.take (i + 1)), cn⟩ with
    | some res =>
      rw [hres] at h
      injection h with h
      subst h
      exact ⟨i, List.mem_cons_self _ _, hres⟩
    | none =>
      rw [hres] at h
      obtain ⟨j, hj, hjr⟩ := ih id h
      exact ⟨j, List.mem_cons_of_mem _ hj, hjr⟩

/-- C5: bare-module-path lookup.  When resolving a dotted name against a
registry built from well-formed files: (1) a successful lookup only ever
goes through a strict prefix (fewer than all dot components) of the
resolved string used as the module part; (2) the longest strict prefix is
tried first, its success short-circuits the scan; (3) if no strict prefix
of the resolved string is a registered module, the lookup fails - in
particular when the entire resolved string is itself a module (a bare
module path is never a class), the lookup is discarded rather than
resolved. -/
theorem qualified_name_strict_prefix_lookup (files : List ParsedFile)
    (q : String) (hwf : WellFormedFiles files) :
    (∀ id, findClassByQualifiedName (buildRegistry files) q = some id →
      ∃ j, 1 ≤ j ∧ j < (splitOnDot q).length ∧
        resolveThroughReexports (buildRegistry files)
          ⟨String.intercalate "." ((splitOnDot q).take j),
            (splitOnDot q).getLastD ""⟩ = some id) ∧
    (2 ≤ (splitOnDot q).length →
      ∀ id, resolveThroughReexports (buildRegistry files)
          ⟨String.intercalate "."
              ((splitOnDot q).take ((splitOnDot q).length - 1)),
            (splitOnDot q).getLastD ""⟩ = some id →
        findClassByQualifiedName (buildRegistry files) q = some id) ∧
    ((∀ j, 1 ≤ j → j < (splitOnDot q).length →
        String.intercalate "." ((splitOnDot q).take j)
          ∉ moduleKeys (buildRegistry files)) →
      findClassByQualifiedName (buildRegistry files) q = none) := by
  refine ⟨?_, ?_, ?_⟩
  · intro id h
    simp only [findClassByQualifiedName] at h
    by_cases he : (splitOnDot q).isEmpty
    · rw [if_pos he] at h; cases h
    · rw [if_neg he] at h
      obtain ⟨i, hi, hir⟩ := tryModulePrefixes_some_mem _ _ _ _ _ h
      simp only [List.mem_reverse, List.mem_range] at hi
      exact ⟨i + 1, by omega, by omega, hir⟩
  · intro hk id h
    simp only [findClassByQualifiedName]
    have hne : (splitOnDot q).isEmpty = false := by
      cases hsp : splitOnDot q with
      | nil => rw [hsp] at hk; simp at hk
      | cons a t => rfl
    rw [if_neg (by simp [hne])]
    have hrange : (List.range ((splitOnDot q).length - 1)).reverse
        = ((splitOnDot q).length - 2) ::
          (List.range ((splitOnDot q).length - 2)).reverse := by
      rw [show (splitOnDot q).length - 1 = ((splitOnDot q).length - 2) + 1
        by omega]
      rw [List.range_succ, List.reverse_append]
      rfl
    rw [hrange]
    simp only [tryModulePrefixes]
    rw [show (splitOnDot q).length - 2 + 1 = (splitOnDot q).length - 1
      by omega] at *
    rw [h]
  · intro hnone
    simp only [findClassByQualifiedName]
    by_cases he : (splitOnDot q).isEmpty
    · rw [if_pos he]
    · rw [if_neg he]
      obtain ⟨hcm, hrm⟩ := invariants_buildRegistry files hwf
      apply tryModulePrefixes_none
      intro i hi
      simp only [List.mem_reverse, List.mem_range] at hi
      apply resolveThrough_none_of_unregistered _ _ hcm hrm
      rw [← Option.not_isSome_iff_eq_none, alookup_isSome_iff_mem_keys]
      exact hnone (i + 1) (by omega) (by omega)

/-- Witness for C5: a registry with a single package module x.y; the
resolved string x.y matches a module in full but no strict prefix of it is
a module, so the qualified lookup is discarded. -/
theorem qualified_name_strict_prefix_lookup_witness :
    "x.y" ∈ moduleKeys (buildRegistry [bareDemoFile]) ∧
    findClassByQualifiedName (buildRegistry [bareDemoFile]) "x.y" = none := by
  constructor
  · decide
  · apply (qualified_name_strict_prefix_lookup [bareDemoFile] "x.y"
      (by intro f hf c hc; fin_cases hf; fin_cases hc; rfl)).2.2
    intro j h1 h2
    have hj : j = 1 := by
      have : (splitOnDot "x.y").length = 2 := by decide
      omega
    subst hj
    decide

/-! ### Fixed-point properties of build_reexports -/

theorem addNewReexports_append :
    ∀ (cands re : List (ClassId × ClassId)),
    ∃ ext, addNewReexports re cands = re ++ ext := by
  intro cands
  induction cands with
  | nil => intro re; exact ⟨[], by simp [addNewReexports]⟩
  | cons c rest ih =>
    intro re
    obtain ⟨rid, oid⟩ := c
    simp only [addNewReexports]
    by_cases hv : alookup re rid = none
    · rw [if_pos hv]
      obtain ⟨ext, hext⟩ := ih (re ++ [(rid, oid)])
      exact ⟨(rid, oid) :: ext, by rw [hext]; simp⟩
    · rw [if_neg hv]
      exact ih re

theorem addNewReexports_length_ge (cands re : List (ClassId × ClassId)) :
    re.length ≤ (addNewReexports re cands).length := by
  obtain ⟨ext, hext⟩ := addNewReexports_append cands re
  rw [hext]
  simp

theorem addNewReexports_grows :
    ∀ (cands re : List (ClassId × ClassId)) (x : ClassId × ClassId),
    x ∈ cands → alookup re x.1 = none →
    re.length + 1 ≤ (addNewReexports re cands).length := by
  intro cands
  induction cands with
  | nil => intro re x hx; simp at hx
  | cons c rest ih =>
    intro re x hx hvx
    obtain ⟨rid, oid⟩ := c
    simp only [addNewReexports]
    by_cases hv : alookup re rid = none
    · rw [if_pos hv]
      have := addNewReexports_length_ge rest (re ++ [(rid, oid)])
      simp at this
      omega
    · rw [if_neg hv]
      rcases List.mem_cons.mp hx with he | hm
    

      · rw [he] at hvx
        exact absurd hvx hv
      · exact ih re x hm hvx

theorem keys_nodup_addNewReexports :
    ∀ (cands re : List (ClassId × ClassId)),
    (re.map Prod.fst).Nodup →
    ((addNewReexports re cands).map Prod.fst).Nodup := by
  intro cands
  induction cands with
  | nil => intro re h; exact h
  | cons c rest ih =>
    intro re h
    obtain ⟨rid, oid⟩ := c
    simp only [addNewReexports]
    by_cases hv : alookup re rid = none
    · rw [if_pos hv]
      apply ih
      have hni : rid ∉ re.map Prod.fst := by
        intro hmem
        rw [← alookup_isSome_iff_mem_keys] at hmem
        rw [hv] at hmem
        cases hmem
      rw [List.map_append]
      simp [List.nodup_append, h, hni]
    · rw [if_neg hv]
      exact ih re h

theorem re_length_le_of_sub (C re : List (ClassId × ClassId))
    (hsub : ∀ x ∈ re, x ∈ C) (hnd : (re.map Prod.fst).Nodup) :
    re.length ≤ C.length := by
  have h2 : (re.map Prod.fst).toFinset.card = re.length := by
    rw [List.toFinset_card_of_nodup hnd, List.length_map]
  have h3 : (re.map Prod.fst).toFinset ⊆ (C.map Prod.fst).toFinset := by
    intro a ha
    simp only [List.mem_toFinset] at ha ⊢
    obtain ⟨p, hp, hpa⟩ := List.mem_map.mp ha
    exact List.mem_map.mpr ⟨p, hsub p hp, hpa⟩
  have h4 := Finset.card_le_card h3
  have h5 : (C.map Prod.fst).toFinset.card ≤ C.length := by
    have := (C.map Prod.fst).toFinset_card_le
    simpa using this
  omega

theorem buildReexportsAux_fix (C : List (ClassId × ClassId)) :
    ∀ (f : Nat) (r : ClassRegistry),
    (∀ x ∈ r.re_exports, x ∈ C) →
    ((r.re_exports.map Prod.fst).Nodup) →
    (∀ r' : ClassRegistry, r'.imports = r.imports →
      ∀ x ∈ reexportCandidates r', x ∈ C) →
    (C.length + 1 ≤ f + r.re_exports.length) →
    reexportPass (buildReexportsAux f r) = buildReexportsAux f r := by
  intro f
  induction f with
  | zero =>
    intro r hsub hnd _ harith
    have := re_length_le_of_sub C r.re_exports hsub hnd
    omega
  | succ f ih =>
    intro r hsub hnd hcands harith
    simp only [buildReexportsAux]
    by_cases hc : (reexportPass r).re_exports.length = r.re_exports.length
    · rw [if_pos hc]
      obtain ⟨ext, hext⟩ :=
        addNewReexports_append (reexportCandidates r) r.re_exports
      have hre : (reexportPass r).re_exports = r.re_exports ++ ext := hext
      have hext0 : ext = [] := by
        rw [hre] at hc
        simp at hc
        exact hc
      have heq : reexportPass r = r := by
        have h0 : reexportPass r
            = { r with re_exports := (reexportPass r).re_exports } := rfl
        rw [h0, hre, hext0]
        simp
      rw [heq]
      exact heq
    · rw [if_neg hc]
      obtain ⟨ext, hext⟩ :=
        addNewReexports_append (reexportCandidates r) r.re_exports
      have hre : (reexportPass r).re_exports = r.re_exports ++ ext := hext
      have hgrow : r.re_exports.length + 1
          ≤ (reexportPass r).re_exports.length := by
        rw [hre] at hc ⊢
        simp only [List.length_append] at hc ⊢
        cases ext with
        | nil => simp at hc
        | cons e t =>
          simp only [List.length_cons]
          omega
      apply ih
      · intro x hx
        rcases mem_addNewReexports x _ _ hx with h1 | h2
        · exact hsub x h1
        · exact hcands r rfl x h2
      · exact keys_nodup_addNewReexports _ _ hnd
      · intro r' hr'
        exact hcands r' hr'
      · omega

theorem pass_fix_closure (F : ClassRegistry) (hfix : reexportPass F = F)
    (pr : ClassId × ClassId) (hpr : pr ∈ reexportCandidates F) :
    alookup F.re_exports pr.1 ≠ none := by
  intro hnone
  have hgrow := addNewReexports_grows (reexportCandidates F)
    F.re_exports pr hpr hnone
  have hlen : (reexportPass F).re_exports.length = F.re_exports.length := by
    rw [hfix]
  have h2 : (reexportPass F).re_exports
      = addNewReexports F.re_exports (reexportCandidates F) := rfl
  rw [h2] at hlen
  omega

/-! ### Registry contents of the chain scenario -/

theorem chainFilesAux_classes (M N : String) :
    ∀ (ms : List String) (r : ClassRegistry),
    ((chainFilesAux M N ms).foldl addFile r).classes = r.classes := by
  intro ms
  induction ms with
  | nil => intro r; rfl
  | cons m rest ih =>
    intro r
    rw [chainFilesAux, List.foldl_cons, ih]
    rfl

theorem chain_r0_classes (M N : String) (ms : List String) :
    (buildRegistryRaw (chainFiles M N ms)).classes
      = [(⟨M, N⟩, ⟨⟨M, N⟩, "", []⟩)] := by
  unfold buildRegistryRaw chainFiles
  rw [List.foldl_cons, chainFilesAux_classes]
  rfl

theorem chainFilesAux_imports (M N : String) :
    ∀ (ms : List String) (r : ClassRegistry),
    ms.Nodup → (∀ m ∈ ms, alookup r.imports m = none) →
    ((chainFilesAux M N ms).foldl addFile r).imports
      = r.imports ++ chainImportsList M N ms := by
  intro ms
  induction ms with
  | nil => intro r _ _; simp [chainFilesAux, chainImportsList]
  | cons m rest ih =>
    intro r hnd hfresh
    rw [chainFilesAux, List.foldl_cons]
    have hm0 : alookup r.imports m = none := hfresh m (List.mem_cons_self _ _)
    have haddk : (addFile r (chainLinkFile N m (rest.headD M))).imports
        = r.imports ++ [(m, [.fromImport (rest.headD M) [(N, none)]])] := by
      show ainsert r.imports m [.fromImport (rest.headD M) [(N, none)]] = _
      unfold ainsert
      rw [hm0]
      rfl
    have hfresh' : ∀ m' ∈ rest,
        alookup (addFile r (chainLinkFile N m (rest.headD M))).imports m'
          = none := by
      intro m' hm'
      rw [haddk, alookup_append,
        hfresh m' (List.mem_cons_of_mem _ hm')]
      have hne : m ≠ m' := by
        intro he
        subst he
        exact (List.nodup_cons.mp hnd).1 hm'
      simp [alookup, hne]
    rw [ih _ (List.nodup_cons.mp hnd).2 hfresh', haddk, chainImportsList]
    simp

theorem chain_r0_imports (M N : String) (ms : List String)
    (hnd : ms.Nodup) (hM : M ∉ ms) :
    (buildRegistryRaw (chainFiles M N ms)).imports
      = (M, []) :: chainImportsList M N ms := by
  unfold buildRegistryRaw chainFiles
  rw [List.foldl_cons]
  have h1 : (addFile emptyRegistry (chainDefFile M N)).imports = [(M, [])] :=
    rfl
  have hfresh : ∀ m ∈ ms,
      alookup (addFile emptyRegistry (chainDefFile M N)).imports m = none := by
    intro m hm
    rw [h1]
    have hne : M ≠ m := fun he => hM (he ▸ hm)
    simp [alookup, hne]
  rw [chainFilesAux_imports M N ms _ hnd hfresh, h1]
  rfl

theorem chain_candidates (M N : String) (ms : List String)
    (r : ClassRegistry)
    (himp : r.imports = (M, []) :: chainImportsList M N ms) :
    reexportCandidates r
      = (chainLinks M N ms).filter
          (fun pr => (alookup r.classes pr.2).isSome
            || (alookup r.re_exports pr.2).isSome) := by
  unfold reexportCandidates
  rw [himp]
  rw [List.flatMap_cons]
  have hhead : ([] : List Import).flatMap (reexportCandidatesOfImport r M)
      = [] := rfl
  rw [hhead, List.nil_append]
  have main : ∀ l : List String,
      (chainImportsList M N l).flatMap
          (fun p => p.2.flatMap (reexportCandidatesOfImport r p.1))
        = (chainLinks M N l).filter
            (fun pr => (alookup r.classes pr.2).isSome
              || (alookup r.re_exports pr.2).isSome) := by
    intro l
    induction l with
    | nil => rfl
    | cons m rest ihl =>
      rw [chainImportsList, List.flatMap_cons, ihl, chainLinks, List.filter]
      by_cases hcond : ((alookup r.classes ⟨rest.headD M, N⟩).isSome
          || (alookup r.re_exports ⟨rest.headD M, N⟩).isSome) = true
      · simp only [reexportCandidatesOfImport, List.flatMap_cons,
          List.flatMap_nil, List.append_nil, List.filterMap]
        rw [hcond]
        simp [hcond]
      · simp only [reexportCandidatesOfImport, List.flatMap_cons,
          List.flatMap_nil, List.append_nil, List.filterMap]
        rw [Bool.not_eq_true] at hcond
        rw [hcond]
        simp [hcond]
  exact main ms

theorem chainLinks_length (M N : String) :
    ∀ ms : List String, (chainLinks M N ms).length = ms.length := by
  intro ms
  induction ms with
  | nil => rfl
  | cons m rest ih => rw [chainLinks, List.length_cons, ih, List.length_cons]

theorem chain_regBound (M N : String) (ms : List String) (r : ClassRegistry)
    (himp : r.imports = (M, []) :: chainImportsList M N ms) :
    regBound r = ms.length := by
  unfold regBound
  rw [himp]
  have main : ∀ l : List String,
      ((chainImportsList M N l).map
        (fun p => (p.2.map importNamesCount).sum)).sum = l.length := by
    intro l
    induction l with
    | nil => rfl
    | cons m rest ihl =>
      rw [chainImportsList, List.map_cons, List.sum_cons, ihl]
      simp [importNamesCount]
      omega
  rw [List.map_cons, List.sum_cons, main ms]
  simp

theorem chainLinks_mem_key (M N : String) :
    ∀ (l : List String) (pr : ClassId × ClassId),
    pr ∈ chainLinks M N l →
    pr.1.module_path ∈ l ∧ pr.1.class_name = N := by
  intro l
  induction l with
  | nil => intro pr h; simp [chainLinks] at h
  | cons m rest ih =>
    intro pr h
    rw [chainLinks] at h
    rcases List.mem_cons.mp h with he | hm
    · subst he
      exact ⟨List.mem_cons_self _ _, rfl⟩
    · obtain ⟨h1, h2⟩ := ih pr hm
      exact ⟨List.mem_cons_of_mem _ h1, h2⟩

theorem chainLinks_mem_of_append (M N : String) :
    ∀ (pre : List String) (m : String) (rest : List String),
    ((⟨m, N⟩ : ClassId), (⟨rest.headD M, N⟩ : ClassId))
      ∈ chainLinks M N (pre ++ m :: rest) := by
  intro pre m rest
  induction pre with
  | nil =>
    rw [List.nil_append, chainLinks]
    exact List.mem_cons_self _ _
  | cons p pre' ih =>
    rw [List.cons_append, chainLinks]
    exact List.mem_cons_of_mem _ ih

theorem chainLinks_lookup_val (M N : String) :
    ∀ (pre : List String) (m : String) (rest : List String) (v : ClassId),
    (pre ++ m :: rest).Nodup →
    ((⟨m, N⟩ : ClassId), v) ∈ chainLinks M N (pre ++ m :: rest) →
    v = ⟨rest.headD M, N⟩ := by
  intro pre
  induction pre with
  | nil =>
    intro m rest v hnd hmem
    rw [List.nil_append, chainLinks] at hmem
    rcases List.mem_cons.mp hmem with he | hm
    · injection he with h1 h2
    · exfalso
      have := (chainLinks_mem_key M N rest _ hm).1
      exact (List.nodup_cons.mp hnd).1 this
  | cons p pre' ih =>
    intro m rest v hnd hmem
    rw [List.cons_append, chainLinks] at hmem
    rcases List.mem_cons.mp hmem with he | hm
    · exfalso
      injection he with h1 h2
      injection h1 with hp hn
      apply (List.nodup_cons.mp (List.cons_append p pre' (m :: rest) ▸ hnd)).1
      rw [hp]
      exact List.mem_append.mpr (Or.inr (List.mem_cons_self _ _))
    · exact ih m rest v
        (List.nodup_cons.mp (List.cons_append p pre' (m :: rest) ▸ hnd)).2 hm

theorem buildReexportsAux_inv (C : List (ClassId × ClassId)) :
    ∀ (f : Nat) (r : ClassRegistry),
    (∀ x ∈ r.re_exports, x ∈ C) →
    ((r.re_exports.map Prod.fst).Nodup) →
    (∀ r' : ClassRegistry, r'.imports = r.imports →
      ∀ x ∈ reexportCandidates r', x ∈ C) →
    (∀ x ∈ (buildReexportsAux f r).re_exports, x ∈ C) := by
  intro f
  induction f with
  | zero => intro r hsub _ _; exact hsub
  | succ f ih =>
    intro r hsub hnd hcands
    simp only [buildReexportsAux]
    by_cases hc : (reexportPass r).re_exports.length = r.re_exports.length
    · rw [if_pos hc]
      intro x hx
      rcases mem_addNewReexports x _ _ hx with h1 | h2
      · exact hsub x h1
      · exact hcands r rfl x h2
    · rw [if_neg hc]
      apply ih
      · intro x hx
        rcases mem_addNewReexports x _ _ hx with h1 | h2
        · exact hsub x h1
        · exact hcands r rfl x h2
      · exact keys_nodup_addNewReexports _ _ hnd
      · intro r' hr'
        exact hcands r' hr'

theorem keys_nodup_buildReexportsAux :
    ∀ (f : Nat) (r : ClassRegistry),
    ((r.re_exports.map Prod.fst).Nodup) →
    (((buildReexportsAux f r).re_exports.map Prod.fst).Nodup) := by
  intro f
  induction f with
  | zero => intro r h; exact h
  | succ f ih =>
    intro r hnd
    simp only [buildReexportsAux]
    by_cases hc : (reexportPass r).re_exports.length = r.re_exports.length
    · rw [if_pos hc]
      exact keys_nodup_addNewReexports _ _ hnd
    · rw [if_neg hc]
      exact ih _ (keys_nodup_addNewReexports _ _ hnd)

theorem chain_complete (M N : String) (ms : List String)
    (hnd : ms.Nodup) (F : ClassRegistry)
    (hfix : reexportPass F = F)
    (himp : F.imports = (M, []) :: chainImportsList M N ms)
    (hclasses : F.classes = [(⟨M, N⟩, ⟨⟨M, N⟩, "", []⟩)])
    (hsub : ∀ x ∈ F.re_exports, x ∈ chainLinks M N ms) :
    ∀ (tail pre : List String), ms = pre ++ tail →
    ∀ (m : String) (rest : List String), tail = m :: rest →
    alookup F.re_exports ⟨m, N⟩ = some ⟨rest.headD M, N⟩ := by
  intro tail
  induction tail with
  | nil =>
    intro pre _ m rest h
    cases h
  | cons m0 rest0 ih =>
    intro pre hms m rest htail
    injection htail with h1 h2
    subst h1
    subst h2
    have hcond : ((alookup F.classes ⟨rest0.headD M, N⟩).isSome
        || (alookup F.re_exports ⟨rest0.headD M, N⟩).isSome) = true := by
      cases rest0 with
      | nil =>
        rw [hclasses]
        simp [alookup]
      | cons m1 rest1 =>
        have h1 := ih (pre ++ [m0]) (by rw [hms]; simp) m1 rest1 rfl
        rw [List.headD_cons, h1]
        simp
    have hmemlink : ((⟨m0, N⟩ : ClassId), (⟨rest0.headD M, N⟩ : ClassId))
        ∈ chainLinks M N ms := by
      rw [hms]
      exact chainLinks_mem_of_append M N pre m0 rest0
    have hcand : ((⟨m0, N⟩ : ClassId), (⟨rest0.headD M, N⟩ : ClassId))
        ∈ reexportCandidates F := by
      rw [chain_candidates M N ms F himp, List.mem_filter]
      exact ⟨hmemlink, hcond⟩
    have hnn := pass_fix_closure F hfix _ hcand
    cases hv : alookup F.re_exports ⟨m0, N⟩ with
    | none => exact absurd hv hnn
    | some v =>
      have hvmem := alookup_mem hv
      have hval := chainLinks_lookup_val M N pre m0 rest0 v
        (by rw [← hms]; exact hnd)
        (by rw [← hms]; exact hsub _ hvmem)
      rw [hval]

theorem chain_walk (M N : String) (ms : List String)
    (hnd : ms.Nodup) (hM : M ∉ ms) (F : ClassRegistry)
    (hclasses : F.classes = [(⟨M, N⟩, ⟨⟨M, N⟩, "", []⟩)])
    (hsub : ∀ x ∈ F.re_exports, x ∈ chainLinks M N ms)
    (hcomplete : ∀ (tail pre : List String), ms = pre ++ tail →
      ∀ (m : String) (rest : List String), tail = m :: rest →
      alookup F.re_exports ⟨m, N⟩ = some ⟨rest.headD M, N⟩) :
    ∀ (tail pre : List String), ms = pre ++ tail →
    ∀ (fuel : Nat) (visited : List ClassId),
    tail.length + 1 ≤ fuel →
    (∀ m' ∈ tail, (⟨m', N⟩ : ClassId) ∉ visited) →
    ((⟨M, N⟩ : ClassId) ∉ visited) →
    resolveThroughAux F fuel visited ⟨tail.headD M, N⟩ = some ⟨M, N⟩ := by
  intro tail
  induction tail with
  | nil =>
    intro pre hms fuel visited hfuel hvt hvM
    cases fuel with
    | zero => omega
    | succ f =>
      rw [List.headD_nil]
      simp only [resolveThroughAux]
      rw [if_neg hvM]
      have hre : alookup F.re_exports ⟨M, N⟩ = none := by
        cases hv : alookup F.re_exports ⟨M, N⟩ with
        | none => rfl
        | some v =>
          have hmk := (chainLinks_mem_key M N ms _
            (hsub _ (alookup_mem hv))).1
          exact absurd hmk hM
      rw [hre, hclasses]
      simp [alookup]
  | cons m rest ih =>
    intro pre hms fuel visited hfuel hvt hvM
    cases fuel with
    | zero => omega
    | succ f =>
      rw [List.headD_cons]
      simp only [resolveThroughAux]
      rw [if_neg (hvt m (List.mem_cons_self _ _))]
      rw [hcomplete (m :: rest) pre hms m rest rfl]
      have hmnodup : m ∉ rest := by
        have : (m :: rest).Nodup := by
          have := hms ▸ hnd
          exact (List.nodup_append.mp this).2.1
        exact (List.nodup_cons.mp this).1
      have hmM : M ≠ m := by
        intro he
        apply hM
        rw [hms, he]
        exact List.mem_append.mpr (Or.inr (List.mem_cons_self _ _))
      apply ih (pre ++ [m]) (by rw [hms]; simp) f (⟨m, N⟩ :: visited)
      · simp only [List.length_cons] at hfuel
        omega
      · intro m' hm'
        simp only [List.mem_cons]
        rintro (he | hv)
        · injection he with he1 he2
          subst he1
          exact hmnodup hm'
        · exact hvt m' (List.mem_cons_of_mem _ hm') hv
      · simp only [List.mem_cons]
        rintro (he | hv)
        · injection he with he1 he2
          exact hmM he1
        · exact hvM hv

/-- C2: re-export transparency.  For a registry built from parsed files
containing a class N defined in module M and a chain of re-exporting
modules ms = [M1, ..., Mk] of arbitrary depth (each importing N from the
next link, the last from M), resolving N against any chain module, via
resolve_through_reexports after build_reexports, yields the same canonical
ClassId (M, N) as resolving it against the defining module M itself. -/
theorem reexport_chain_transparent (M N : String) (ms : List String)
    (hnd : ms.Nodup) (hM : M ∉ ms) :
    resolveThroughReexports (buildRegistry (chainFiles M N ms)) ⟨M, N⟩
      = some ⟨M, N⟩ ∧
    ∀ mi ∈ ms,
      resolveThroughReexports (buildRegistry (chainFiles M N ms)) ⟨mi, N⟩
        = some ⟨M, N⟩ := by
  have himp0 : (buildRegistryRaw (chainFiles M N ms)).imports
      = (M, []) :: chainImportsList M N ms := chain_r0_imports M N ms hnd hM
  have hclasses0 := chain_r0_classes M N ms
  have hre0 := buildRaw_re_exports (chainFiles M N ms)
  have hFdef : buildRegistry (chainFiles M N ms)
      = buildReexportsAux (regBound (buildRegistryRaw (chainFiles M N ms)) + 1)
        (buildRegistryRaw (chainFiles M N ms)) := rfl
  obtain ⟨hfc, hfn, hfi, hfp⟩ := buildReexportsAux_fields
    (regBound (buildRegistryRaw (chainFiles M N ms)) + 1)
    (buildRegistryRaw (chainFiles M N ms))
  have himpF : (buildRegistry (chainFiles M N ms)).imports
      = (M, []) :: chainImportsList M N ms := by
    rw [hFdef, hfi, himp0]
  have hclassesF : (buildRegistry (chainFiles M N ms)).classes
      = [(⟨M, N⟩, ⟨⟨M, N⟩, "", []⟩)] := by
    rw [hFdef, hfc, hclasses0]
  have hcands : ∀ r' : ClassRegistry,
      r'.imports = (buildRegistryRaw (chainFiles M N ms)).imports →
      ∀ x ∈ reexportCandidates r', x ∈ chainLinks M N ms := by
    intro r' hr' x hx
    rw [chain_candidates M N ms r' (by rw [hr', himp0])] at hx
    exact (List.mem_filter.mp hx).1
  have hsub0 : ∀ x ∈ (buildRegistryRaw (chainFiles M N ms)).re_exports,
      x ∈ chainLinks M N ms := by
    rw [hre0]
    intro x hx
    cases hx
  have hnd0 : (((buildRegistryRaw
      (chainFiles M N ms)).re_exports).map Prod.fst).Nodup := by
    rw [hre0]
    exact List.nodup_nil
  have harith : (chainLinks M N ms).length + 1
      ≤ (regBound (buildRegistryRaw (chainFiles M N ms)) + 1)
        + (buildRegistryRaw (chainFiles M N ms)).re_exports.length := by
    rw [chainLinks_length,
      chain_regBound M N ms (buildRegistryRaw (chainFiles M N ms)) himp0]
    omega
  have hfix : reexportPass (buildRegistry (chainFiles M N ms))
      = buildRegistry (chainFiles M N ms) := by
    rw [hFdef]
    exact buildReexportsAux_fix (chainLinks M N ms) _ _ hsub0 hnd0 hcands harith
  have hsubF : ∀ x ∈ (buildRegistry (chainFiles M N ms)).re_exports,
      x ∈ chainLinks M N ms := by
    rw [hFdef]
    exact buildReexportsAux_inv (chainLinks M N ms) _ _ hsub0 hnd0 hcands
  have hcomplete := chain_complete M N ms hnd _ hfix himpF hclassesF hsubF
  have hnodF : (((buildRegistry
      (chainFiles M N ms)).re_exports).map Prod.fst).Nodup := by
    rw [hFdef]
    exact keys_nodup_buildReexportsAux _ _ hnd0
  have hlenF : ms.length
      ≤ (buildRegistry (chainFiles M N ms)).re_exports.length := by
    have hinj : Function.Injective (fun m => (⟨m, N⟩ : ClassId)) := by
      intro a b hab
      injection hab
    have hkeys : ∀ x ∈ ms.map (fun m => (⟨m, N⟩ : ClassId)),
        x ∈ (buildRegistry (chainFiles M N ms)).re_exports.map Prod.fst := by
      intro x hx
      obtain ⟨m, hm, hxm⟩ := List.mem_map.mp hx
      obtain ⟨pre, t, hsplit⟩ := List.append_of_mem hm
      have := hcomplete (m :: t) pre hsplit m t rfl
      have hmem := alookup_mem this
      subst hxm
      exact List.mem_map.mpr ⟨_, hmem, rfl⟩
    have hndmap : (ms.map (fun m => (⟨m, N⟩ : ClassId))).Nodup :=
      hnd.map hinj
    have h1 : (ms.map (fun m => (⟨m, N⟩ : ClassId))).length
        ≤ ((buildRegistry (chainFiles M N ms)).re_exports.map Prod.fst).length :=
      (hndmap.subperm hkeys).length_le
    simpa using h1
  constructor
  · have hw := chain_walk M N ms hnd hM _ hclassesF hsubF hcomplete
      [] ms (by simp)
      ((buildRegistry (chainFiles M N ms)).re_exports.length + 1) []
      (by simp) (by simp) (by simp)
    exact hw
  · intro mi hmi
    obtain ⟨pre, t, hsplit⟩ := List.append_of_mem hmi
    have hlen2 : (mi :: t).length ≤ ms.length := by
      have := congrArg List.length hsplit
      simp at this
      simp
      omega
    have hw := chain_walk M N ms hnd hM _ hclassesF hsubF hcomplete
      (mi :: t) pre hsplit
      ((buildRegistry (chainFiles M N ms)).re_exports.length + 1) []
      (by simp at hlen2 ⊢; omega) (by simp) (by simp)
    exact hw

/-- Witness for C2: a two-link chain pkg -> pkg.mid -> pkg.base; the name
resolves to the defining module from both re-exporting modules and from
the defining module itself. -/
theorem reexport_chain_transparent_witness :
    resolveThroughReexports
        (buildRegistry (chainFiles "pkg.base" "Node" ["pkg", "pkg.mid"]))
        ⟨"pkg.base", "Node"⟩ = some ⟨"pkg.base", "Node"⟩ ∧
    resolveThroughReexports
        (buildRegistry (chainFiles "pkg.base" "Node" ["pkg", "pkg.mid"]))
        ⟨"pkg", "Node"⟩ = some ⟨"pkg.base", "Node"⟩ ∧
    resolveThroughReexports
        (buildRegistry (chainFiles "pkg.base" "Node" ["pkg", "pkg.mid"]))
        ⟨"pkg.mid", "Node"⟩ = some ⟨"pkg.base", "Node"⟩ := by
  have h := reexport_chain_transparent "pkg.base" "Node" ["pkg", "pkg.mid"]
    (by decide) (by decide)
  exact ⟨h.1, h.2 "pkg" (by decide), h.2 "pkg.mid" (by decide)⟩

/-! ### BFS correctness (C6) and the missing graph edges (C1) -/

theorem newKidsOf_sub :
    ∀ (cs : List Graph.ClassId) (v : Finset Graph.ClassId)
      (x : Graph.ClassId),
    x ∈ Graph.newKidsOf v cs → x ∈ cs ∧ x ∉ v := by
  intro cs
  induction cs with
  | nil => intro v x hx; cases hx
  | cons c t ih =>
    intro v x hx
    rw [Graph.newKidsOf] at hx
    by_cases hc : c ∈ v
    · rw [if_pos hc] at hx
      obtain ⟨h1, h2⟩ := ih v x hx
      exact ⟨List.mem_cons_of_mem _ h1, h2⟩
    · rw [if_neg hc] at hx
      rcases List.mem_cons.mp hx with he | hm
      · subst he
        exact ⟨List.mem_cons_self _ _, hc⟩
      · obtain ⟨h1, h2⟩ := ih _ x hm
        exact ⟨List.mem_cons_of_mem _ h1,
          fun hxv => h2 (Finset.mem_insert_of_mem hxv)⟩

theorem newKidsOf_nodup :
    ∀ (cs : List Graph.ClassId) (v : Finset Graph.ClassId),
    (Graph.newKidsOf v cs).Nodup := by
  intro cs
  induction cs with
  | nil => intro v; exact List.nodup_nil
  | cons c t ih =>
    intro v
    rw [Graph.newKidsOf]
    by_cases hc : c ∈ v
    · rw [if_pos hc]
      exact ih v
    · rw [if_neg hc]
      refine List.nodup_cons.mpr ⟨?_, ih _⟩
      intro hmem
      exact (newKidsOf_sub t _ c hmem).2 (Finset.mem_insert_self _ _)

theorem newKidsOf_complete :
    ∀ (cs : List Graph.ClassId) (v : Finset Graph.ClassId)
      (x : Graph.ClassId),
    x ∈ cs → x ∈ v ∨ x ∈ Graph.newKidsOf v cs := by
  intro cs
  induction cs with
  | nil => intro v x hx; cases hx
  | cons c t ih =>
    intro v x hx
    rw [Graph.newKidsOf]
    by_cases hc : c ∈ v
    · rw [if_pos hc]
      rcases List.mem_cons.mp hx with he | hm
      · subst he
        exact Or.inl hc
      · exact ih v x hm
    · rw [if_neg hc]
      rcases List.mem_cons.mp hx with he | hm
      · subst he
        exact Or.inr (List.mem_cons_self _ _)
      · rcases ih (insert c v) x hm with hv | hk
        · rcases Finset.mem_insert.mp hv with he | hv'
          · subst he
            exact Or.inr (List.mem_cons_self _ _)
          · exact Or.inl hv'
        · exact Or.inr (List.mem_cons_of_mem _ hk)

theorem childrenOf_subset_allNodes (g : Graph.InheritanceGraph)
    (root c x : Graph.ClassId) (hx : x ∈ Graph.childrenOf g c) :
    x ∈ Graph.allNodes g root := by
  unfold Graph.childrenOf at hx
  cases hl : alookup g.class_children c with
  | none => rw [hl] at hx; cases hx
  | some l =>
    rw [hl] at hx
    simp only [Option.getD_some] at hx
    have hmem := alookup_mem hl
    unfold Graph.allNodes
    apply Finset.mem_insert_of_mem
    have main : ∀ (cc : List (Graph.ClassId × List Graph.ClassId)),
        (c, l) ∈ cc →
        x ∈ cc.foldr (fun p acc => p.2.toFinset ∪ acc) ∅ := by
      intro cc
      induction cc with
      | nil => intro h; cases h
      | cons p t ih =>
        intro h
        rcases List.mem_cons.mp h with he | hm
        · subst he
          simp only [List.foldr_cons]
          exact Finset.mem_union_left _ (List.mem_toFinset.mpr hx)
        · simp only [List.foldr_cons]
          exact Finset.mem_union_right _ (ih hm)
    exact main g.class_children hmem

theorem bfsAux_spec (g : Graph.InheritanceGraph) (root : Graph.ClassId) :
    ∀ (f : Nat) (queue : List Graph.ClassId)
      (visited : Finset Graph.ClassId),
    (Graph.allNodes g root \ visited).card + queue.length ≤ f →
    root ∈ visited →
    (∀ q ∈ queue, Relation.ReflTransGen (Graph.edge g) root q) →
    (∀ v ∈ visited, v ∈ queue ∨
      ∀ c ∈ Graph.childrenOf g v, c ∈ visited) →
    (Graph.bfsAux g f queue visited).Nodup ∧
    (∀ c ∈ Graph.bfsAux g f queue visited,
      c ∉ visited ∧ Relation.TransGen (Graph.edge g) root c) ∧
    (∀ c, Relation.ReflTransGen (Graph.edge g) root c →
      c ∈ visited ∨ c ∈ Graph.bfsAux g f queue visited) := by
  intro f
  induction f with
  | zero =>
    intro queue visited hfuel hroot hq hIc
    cases queue with
    | cons a t => simp at hfuel
    | nil =>
      have hclosed : ∀ v ∈ visited,
          ∀ c ∈ Graph.childrenOf g v, c ∈ visited := by
        intro v hv
        rcases hIc v hv with hmem | hcl
        · cases hmem
        · exact hcl
      refine ⟨List.nodup_nil, ?_, ?_⟩
      · intro c hc
        cases hc
      · intro c hc
        left
        induction hc with
        | refl => exact hroot
        | tail hab hbc ihc => exact hclosed _ ihc _ hbc
  | succ f ih =>
    intro queue visited hfuel hroot hq hIc
    cases queue with
    | nil =>
      have hclosed : ∀ v ∈ visited,
          ∀ c ∈ Graph.childrenOf g v, c ∈ visited := by
        intro v hv
        rcases hIc v hv with hmem | hcl
        · cases hmem
        · exact hcl
      refine ⟨List.nodup_nil, ?_, ?_⟩
      · intro c hc
        cases hc
      · intro c hc
        left
        induction hc with
        | refl => exact hroot
        | tail hab hbc ihc => exact hclosed _ ihc _ hbc
    | cons current rest =>
      rw [show Graph.bfsAux g (f + 1) (current :: rest) visited
          = Graph.newKidsOf visited (Graph.childrenOf g current)
            ++ Graph.bfsAux g f
              (rest ++ Graph.newKidsOf visited (Graph.childrenOf g current))
              (visited ∪
                (Graph.newKidsOf visited
                  (Graph.childrenOf g current)).toFinset) from rfl]
      set nk := Graph.newKidsOf visited (Graph.childrenOf g current) with hnk
      set v' := visited ∪ nk.toFinset with hv'
      have hRcur : Relation.ReflTransGen (Graph.edge g) root current :=
        hq current (List.mem_cons_self _ _)
      have hnksub : ∀ x ∈ nk, x ∈ Graph.childrenOf g current ∧
          x ∉ visited := by
        intro x hx
        exact newKidsOf_sub (Graph.childrenOf g current) visited x hx
      have hnkall : ∀ x ∈ nk, x ∈ Graph.allNodes g root := by
        intro x hx
        exact childrenOf_subset_allNodes g root current x (hnksub x hx).1
      have hnkfin : nk.toFinset ⊆ Graph.allNodes g root \ visited := by
        intro x hx
        rw [List.mem_toFinset] at hx
        exact Finset.mem_sdiff.mpr ⟨hnkall x hx, (hnksub x hx).2⟩
      have hsd : Graph.allNodes g root \ v'
          = (Graph.allNodes g root \ visited) \ nk.toFinset := by
        ext x
        simp only [Finset.mem_sdiff, hv', Finset.mem_union]
        tauto
      have hcard : (Graph.allNodes g root \ v').card
          = (Graph.allNodes g root \ visited).card - nk.length := by
        rw [hsd, Finset.card_sdiff hnkfin,
          List.toFinset_card_of_nodup (newKidsOf_nodup _ _)]
      have hfuel' : (Graph.allNodes g root \ v').card
          + (rest ++ nk).length ≤ f := by
        have hle : nk.length ≤ (Graph.allNodes g root \ visited).card := by
          have h1 := Finset.card_le_card hnkfin
          rw [List.toFinset_card_of_nodup (newKidsOf_nodup _ _)] at h1
          exact h1
        rw [hcard, List.length_append]
        simp only [List.length_cons] at hfuel
        omega
      have hq' : ∀ q ∈ rest ++ nk,
          Relation.ReflTransGen (Graph.edge g) root q := by
        intro q hqm
        rcases List.mem_append.mp hqm with hm | hm
        · exact hq q (List.mem_cons_of_mem _ hm)
        · exact Relation.ReflTransGen.tail hRcur (hnksub q hm).1
      have hroot' : root ∈ v' := Finset.mem_union_left _ hroot
      have hIc' : ∀ v ∈ v', v ∈ rest ++ nk ∨
          ∀ c ∈ Graph.childrenOf g v, c ∈ v' := by
        intro v hv
        rcases Finset.mem_union.mp hv with hvv | hvnk
        · rcases hIc v hvv with hmem | hcl
          · rcases List.mem_cons.mp hmem with he | hm
            · subst he
              right
              intro c hc
              rcases newKidsOf_complete _ visited c hc with h1 | h2
              · exact Finset.mem_union_left _ h1
              · exact Finset.mem_union_right _ (List.mem_toFinset.mpr h2)
            · exact Or.inl (List.mem_append_left _ hm)
          · right
            intro c hc
            exact Finset.mem_union_left _ (hcl c hc)
        · rw [List.mem_toFinset] at hvnk
          exact Or.inl (List.mem_append_right _ hvnk)
      obtain ⟨hndR, hsoundR, hcomplR⟩ :=
        ih (rest ++ nk) v' hfuel' hroot' hq' hIc'
      refine ⟨?_, ?_, ?_⟩
      · rw [List.nodup_append]
        refine ⟨newKidsOf_nodup _ _, hndR, ?_⟩
        intro x hx hx2
        have := (hsoundR x hx2).1
        exact this (Finset.mem_union_right _ (List.mem_toFinset.mpr hx))
      · intro c hc
        rcases List.mem_append.mp hc with hm | hm
        · exact ⟨(hnksub c hm).2,
            Relation.TransGen.tail' hRcur (hnksub c hm).1⟩
        · obtain ⟨hnv, htg⟩ := hsoundR c hm
          exact ⟨fun hcv => hnv (Finset.mem_union_left _ hcv), htg⟩
      · intro c hcR
        rcases hcomplR c hcR with hcv | hcr
        · rcases Finset.mem_union.mp hcv with h1 | h2
          · exact Or.inl h1
          · rw [List.mem_toFinset] at h2
            exact Or.inr (List.mem_append_left _ h2)
        · exact Or.inr (List.mem_append_right _ hcr)

/-- C6: transitive query correctness.  For every inheritance graph
(cyclic ones included; the claim's built graphs are a special case) and
every root, find_all_subclasses returns a duplicate-free list containing
exactly the ClassIds reachable from root in one or more steps of the
direct-children relation, with root itself never included; totality of
the embedded function is the termination guarantee. -/
theorem find_all_subclasses_spec (g : Graph.InheritanceGraph)
    (root : Graph.ClassId) :
    (Graph.findAllSubclasses g root).Nodup ∧
    ∀ c : Graph.ClassId,
      c ∈ Graph.findAllSubclasses g root ↔
        (c ≠ root ∧ Relation.TransGen (Graph.edge g) root c) := by
  have hfuel : (Graph.allNodes g root \ ({root} : Finset Graph.ClassId)).card
      + ([root] : List Graph.ClassId).length
      ≤ (Graph.allNodes g root).card + 1 := by
    have := Finset.card_le_card
      (Finset.sdiff_subset :
        Graph.allNodes g root \ {root} ⊆ Graph.allNodes g root)
    simp only [List.length_cons, List.length_nil]
    omega
  obtain ⟨hnd, hsound, hcompl⟩ := bfsAux_spec g root
    ((Graph.allNodes g root).card + 1) [root] {root} hfuel
    (Finset.mem_singleton_self root)
    (by intro q hqm
        rcases List.mem_cons.mp hqm with he | hm
        · subst he; exact Relation.ReflTransGen.refl
        · cases hm)
    (by intro v hv
        rw [Finset.mem_singleton] at hv
        subst hv
        exact Or.inl (List.mem_cons_self _ _))
  refine ⟨hnd, ?_⟩
  intro c
  constructor
  · intro hc
    obtain ⟨hnv, htg⟩ := hsound c hc
    refine ⟨?_, htg⟩
    intro he
    subst he
    exact hnv (Finset.mem_singleton_self c)
  · rintro ⟨hne, htg⟩
    rcases hcompl c htg.to_reflTransGen with hv | hr
    · rw [Finset.mem_singleton] at hv
      exact absurd hv hne
    · exact hr

/-- C1: the third pass of InheritanceGraph::build (src/src/graph.rs) is a
TODO and records no parent-child edge, contradicting its own
documentation, the claim, and the repository's integration tests: on the
two-file demo the registry resolves Dog's base Animal, yet the built
graph's class_children map is empty and the subclass query returns
nothing. -/
theorem graph_build_edges_missing :
    resolveBase (buildRegistry [graphDemoBase, graphDemoDerived])
        (.simple "Animal") "derived" = some ⟨"base", "Animal"⟩ ∧
    (Graph.build [graphDemoBase, graphDemoDerived]).class_children = [] ∧
    Graph.findAllSubclasses (Graph.build [graphDemoBase, graphDemoDerived])
        ⟨"base", "Animal"⟩ = [] := by
  refine ⟨by decide, rfl, by decide⟩

/-! ### Target-class trichotomy (C4) -/

/-- C4: resolve_target_class without a module qualifier: zero classes
with the queried name give ClassNotFound with no module, a unique hit
is returned, and two or more give AmbiguousClassName whose candidates
contain the module of every class with that name; querying again with
any candidate module as qualifier succeeds on the fast path of
resolve_class. -/
theorem target_class_resolution_trichotomy (reg : Finder.Registry)
    (name : String) :
    (reg.classes.filter (fun c => c.name == name) = [] →
      Finder.resolveTargetClass reg name none =
        .error (.classNotFound name none)) ∧
    (∀ id : Finder.ClassId,
      reg.classes.filter (fun c => c.name == name) = [id] →
      Finder.resolveTargetClass reg name none = .ok id) ∧
    (2 ≤ (reg.classes.filter (fun c => c.name == name)).length →
      Finder.resolveTargetClass reg name none =
        .error (.ambiguousClassName name
          ((reg.classes.filter (fun c => c.name == name)).map
            (fun c => c.module))) ∧
      (∀ id ∈ reg.classes, id.name = name →
        id.module ∈ (reg.classes.filter (fun c => c.name == name)).map
          (fun c => c.module)) ∧
      (∀ m ∈ (reg.classes.filter (fun c => c.name == name)).map
          (fun c => c.module),
        Finder.resolveTargetClass reg name (some m) = .ok ⟨m, name⟩)) := by
  refine ⟨?_, ?_, ?_⟩
  · intro h
    simp only [Finder.resolveTargetClass]
    rw [h]
  · intro id h
    simp only [Finder.resolveTargetClass]
    rw [h]
  · intro hlen
    cases hf : reg.classes.filter (fun c => c.name == name) with
    | nil =>
      rw [hf] at hlen
      simp at hlen
    | cons a t =>
      cases t with
      | nil =>
        rw [hf] at hlen
        simp at hlen
      | cons b t2 =>
        refine ⟨?_, ?_, ?_⟩
        · simp only [Finder.resolveTargetClass]
          rw [hf]
        · intro id hid hname
          have hmem : id ∈ reg.classes.filter (fun c => c.name == name) :=
            List.mem_filter.mpr ⟨hid, by simp [hname]⟩
          rw [hf] at hmem
          exact List.mem_map_of_mem _ hmem
        · intro m hm
          obtain ⟨c, hc, hcm⟩ := List.mem_map.mp hm
          rw [← hf] at hc
          have hcf := List.mem_filter.mp hc
          have hcname : c.name = name := by
            have := hcf.2
            simpa using this
          have hcid : c = ⟨m, name⟩ := by
            cases c
            simp only at hcm hcname
            rw [hcm, hcname]
          have hmemc : (⟨m, name⟩ : Finder.ClassId) ∈ reg.classes := by
            rw [← hcid]
            exact hcf.1
          simp only [Finder.resolveTargetClass, Finder.resolveClass,
            Finder.resolveClassAux]
          rw [if_neg (List.not_mem_nil (m, name)), if_pos hmemc]

/-- Witness for C4: on regC4 the bare name Animal is ambiguous between
zoo and farm, and qualifying with the candidate module farm
succeeds. -/
theorem target_class_resolution_trichotomy_witness :
    2 ≤ (regC4.classes.filter (fun c => c.name == "Animal")).length ∧
    Finder.resolveTargetClass regC4 "Animal" none =
      .error (.ambiguousClassName "Animal" ["zoo", "farm"]) ∧
    Finder.resolveTargetClass regC4 "Animal" (some "farm") =
      .ok ⟨"farm", "Animal"⟩ := by
  have h := (target_class_resolution_trichotomy regC4 "Animal").2.2 (by decide)
  refine ⟨by decide, ?_, ?_⟩
  · rw [h.1]
    exact congrArg Except.error (by decide)
  · exact h.2.2 "farm" (by decide)

/-! ### Parse-phase ordering (C7) -/

theorem firstPass_spec (meta : String → Option (Nat × Nat))
    (entries : List (String × Cache.CacheEntry)) :
    ∀ files : List String,
    (Cache.firstPass meta entries files).1 =
      (files.filter (Cache.isHit meta entries)).map
        (Cache.hitPayload entries) ∧
    (Cache.firstPass meta entries files).2 =
      files.filter (fun fp => ! Cache.isHit meta entries fp) := by
  intro files
  induction files with
  | nil => exact ⟨rfl, rfl⟩
  | cons fp rest ih =>
    obtain ⟨ih1, ih2⟩ := ih
    cases hm : meta fp with
    | none =>
      have hhit : Cache.isHit meta entries fp = false := by
        simp only [Cache.isHit]
        rw [hm]
      cases ha : alookup entries fp with
      | none =>
        simp only [Cache.firstPass]
        rw [hm, ha]
        dsimp only
        rw [List.filter_cons_of_neg (by simp [hhit]),
          List.filter_cons_of_pos (by simp [hhit])]
        exact ⟨ih1, by rw [ih2]⟩
      | some entry =>
        simp only [Cache.firstPass]
        rw [hm, ha]
        dsimp only
        rw [List.filter_cons_of_neg (by simp [hhit]),
          List.filter_cons_of_pos (by simp [hhit])]
        exact ⟨ih1, by rw [ih2]⟩
    | some pr =>
      obtain ⟨mt, sz⟩ := pr
      cases ha : alookup entries fp with
      | none =>
        have hhit : Cache.isHit meta entries fp = false := by
          simp only [Cache.isHit]
          rw [hm, ha]
        simp only [Cache.firstPass]
        rw [hm, ha]
        dsimp only
        rw [List.filter_cons_of_neg (by simp [hhit]),
          List.filter_cons_of_pos (by simp [hhit])]
        exact ⟨ih1, by rw [ih2]⟩
      | some entry =>
        cases hcond : entry.mtime == mt && entry.size == sz with
        | true =>
          have hhit : Cache.isHit meta entries fp = true := by
            simp only [Cache.isHit]
            rw [hm, ha]
            exact hcond
          have hpay : Cache.hitPayload entries fp =
              Except.ok entry.parsed := by
            simp only [Cache.hitPayload]
            rw [ha]
          simp only [Cache.firstPass]
          rw [hm, ha]
          dsimp only
          rw [hcond, if_pos rfl,
            List.filter_cons_of_pos hhit,
            List.filter_cons_of_neg (by simp [hhit]),
            List.map_cons]
          exact ⟨by rw [ih1, hpay], ih2⟩
        | false =>
          have hhit : Cache.isHit meta entries fp = false := by
            simp only [Cache.isHit]
            rw [hm, ha]
            exact hcond
          simp only [Cache.firstPass]
          rw [hm, ha]
          dsimp only
          rw [hcond, if_neg Bool.false_ne_true,
            List.filter_cons_of_neg (by simp only [hhit]; exact
              Bool.false_ne_true),
            List.filter_cons_of_pos (by simp only [hhit, Bool.not_false])]
          exact ⟨ih1, by rw [ih2]⟩

theorem secondPass_results (meta : String → Option (Nat × Nat)) :
    ∀ (l : List (String × Except String Cache.ParsedFile))
      (entries : List (String × Cache.CacheEntry)),
    (Cache.secondPass meta l entries).2 = l.map Prod.snd := by
  intro l
  induction l with
  | nil => intro entries; rfl
  | cons pr t ih =>
    intro entries
    obtain ⟨fp, r⟩ := pr
    simp only [Cache.secondPass, List.map_cons]
    rw [ih]

theorem zip_map_snd {α β : Type} (f : α → β) :
    ∀ l : List α, (l.zip (l.map f)).map Prod.snd = l.map f := by
  intro l
  induction l with
  | nil => rfl
  | cons a t ih => simp only [List.map_cons, List.zip_cons_cons, ih]

/-- C7 (counterexample): with b.py cached and unchanged but a.py
uncached, parse_files keeps input order while parse_with_cache returns
b.py's result first — the cached parse ordering diverges from the
input list, refuting order preservation for parse_with_cache. -/
theorem parse_with_cache_order_counterexample :
    Cache.parseFiles cexParse ["a.py", "b.py"]
      = [Except.ok cexParsedA, Except.ok cexParsedB] ∧
    (Cache.parseWithCache cexMeta cexParse cexEntries
        ["a.py", "b.py"]).1
      = [Except.ok cexParsedB, Except.ok cexParsedA] ∧
    cexParsedA ≠ cexParsedB :=
  ⟨rfl, rfl, by decide⟩

/-- C7 (amended): parse_files preserves input order (one entry per
file, in order), but parse_with_cache returns the cache hits in input
order followed by the parses of the misses in input order — still
exactly one entry per input file, but not positioned in input order. -/
theorem parse_with_cache_order_amended
    (meta : String → Option (Nat × Nat))
    (parse : String → Except String Cache.ParsedFile)
    (entries : List (String × Cache.CacheEntry))
    (files : List String) :
    Cache.parseFiles parse files = files.map parse ∧
    (Cache.parseWithCache meta parse entries files).1 =
      (files.filter (Cache.isHit meta entries)).map
        (Cache.hitPayload entries) ++
      (files.filter (fun fp => ! Cache.isHit meta entries fp)).map
        parse ∧
    ((Cache.parseWithCache meta parse entries files).1).length
      = files.length := by
  obtain ⟨h1, h2⟩ := firstPass_spec meta entries files
  have hmain : (Cache.parseWithCache meta parse entries files).1 =
      (files.filter (Cache.isHit meta entries)).map
        (Cache.hitPayload entries) ++
      (files.filter (fun fp => ! Cache.isHit meta entries fp)).map
        parse := by
    simp only [Cache.parseWithCache]
    cases he : (Cache.firstPass meta entries files).2.isEmpty with
    | true =>
      rw [if_pos rfl]
      dsimp only
      have hnil : (Cache.firstPass meta entries files).2 = [] :=
        List.isEmpty_iff.mp he
      rw [h2] at hnil
      rw [hnil]
      simp only [List.map_nil, List.append_nil]
      exact h1
    | false =>
      rw [if_neg Bool.false_ne_true]
      dsimp only
      rw [secondPass_results, Cache.parseFiles, zip_map_snd, h1, h2]
  refine ⟨rfl, hmain, ?_⟩
  rw [hmain]
  rw [List.length_append, List.length_map, List.length_map]
  exact (List.length_eq_length_filter_add
    (Cache.isHit meta entries)).symm
